import Mathlib

/-!
Shallow embedding of the jkds heap hierarchy and indexed priority queue
(`src/include/jkds/container/{heap,binary_heap,k_heap,priority_queue}.h`).

The element sequence `std::vector<T>` is modelled as `List T`; reads through
`operator[]`/`at` are modelled with `List.getD` (all reads performed by the
algorithms are in range).  `std::size_t` arithmetic is `Nat`, with the one
reachable wrap-around (`size - 2` in `KHeap::is_leaf` for `size < 2`)
modelled by an explicit `% 2 ^ 64`.  The comparator `comp_` is an abstract
`T → T → Bool`; `std::less`/`std::greater` instantiate it.
-/

namespace Jkds

/-- `2^64`, the modulus of `std::size_t` arithmetic. -/
def usizeMod : Nat := 2 ^ 64

variable {T : Type} [Inhabited T]

/-- Read `nodes_[i]` (in-range in every use the algorithms make). -/
def nth (nodes : List T) (i : Nat) : T := nodes.getD i default

/-- `std::swap(nodes_.at(i), nodes_.at(j))`: exchange two sequence slots. -/
def swapL (nodes : List T) (i j : Nat) : List T :=
  (nodes.set i (nth nodes j)).set j (nth nodes i)

theorem nth_eq_getElem {nodes : List T} {i : Nat} (h : i < nodes.length) :
    nth nodes i = nodes[i] := by
  simp [nth, List.getD_eq_getElem?_getD, List.getElem?_eq_getElem h]

@[simp] theorem swapL_length (nodes : List T) (i j : Nat) :
    (swapL nodes i j).length = nodes.length := by
  simp [swapL]

theorem nth_swapL_left (nodes : List T) {i j : Nat} (hi : i < nodes.length) :
    nth (swapL nodes i j) i = nth nodes j := by
  rcases eq_or_ne j i with rfl | h
  · simp [swapL, nth, List.getD_eq_getElem?_getD, List.getElem?_set_self
      (by simpa using hi)]
  · simp [swapL, nth, List.getD_eq_getElem?_getD, List.getElem?_set_ne h,
      List.getElem?_set_self hi]

theorem nth_swapL_right (nodes : List T) {i j : Nat} (hj : j < nodes.length) :
    nth (swapL nodes i j) j = nth nodes i := by
  have h : ((nodes.set i (nth nodes j)).set j (nth nodes i))[j]? = some (nth nodes i) :=
    List.getElem?_set_self (by simpa using hj)
  rw [swapL, nth, List.getD_eq_getElem?_getD, h]
  rfl

theorem nth_swapL_other (nodes : List T) {i j k : Nat} (hki : k ≠ i) (hkj : k ≠ j) :
    nth (swapL nodes i j) k = nth nodes k := by
  simp [swapL, nth, List.getD_eq_getElem?_getD, List.getElem?_set_ne (Ne.symm hki),
    List.getElem?_set_ne (Ne.symm hkj)]

theorem swapL_perm [DecidableEq T] (nodes : List T) {i j : Nat}
    (hi : i < nodes.length) (hj : j < nodes.length) :
    (swapL nodes i j).Perm nodes := by
  rw [List.perm_iff_count]
  intro a
  have hi1 : i < (nodes.set i (nth nodes j)).length := by simp [hi]
  have hj1 : j < (nodes.set i (nth nodes j)).length := by simp [hj]
  have h2 : (nodes.set i (nth nodes j))[j] = nodes[j] := by
    rcases eq_or_ne i j with rfl | hij
    · rw [List.getElem_set_self]; exact nth_eq_getElem hj
    · exact List.getElem_set_ne hij hj1
  have hxi : (if (nodes[i] == a) = true then 1 else 0) ≤ nodes.count a := by
    rcases eq_or_ne nodes[i] a with hb | hb
    · simp only [hb, beq_self_eq_true, if_pos]
      exact List.count_pos_iff.mpr (hb ▸ List.getElem_mem hi)
    · simp [hb]
  rw [swapL, List.count_set _ _ _ _ hj1, List.count_set _ _ _ _ hi]
  simp only [nth_eq_getElem hi, nth_eq_getElem hj] at h2 ⊢
  simp only [h2]
  split_ifs at hxi ⊢ <;> omega

/-! ### Arity arithmetic

Binary (`binary_heap.h`): `left i = (i << 1) + 1`, `right i = (i << 1) + 2`,
`parent i = (i - 1) >> 1`, `is_leaf i ↔ i ≥ (size >> 1) + 1`.

K-ary (`k_heap.h`): `child i j = K*i + j + 1`, `parent i = (i - 1) / K`,
`is_leaf i ↔ i > (size - 2) / K` where `size - 2` is `size_t` subtraction
(wrapping modulo `2^64` when `size < 2`). -/

def bhLeft (i : Nat) : Nat := (Nat.shiftLeft i 1) + 1

def bhRight (i : Nat) : Nat := (Nat.shiftLeft i 1) + 2

def bhParent (i : Nat) : Nat := Nat.shiftRight (i - 1) 1

def bhIsLeaf (n i : Nat) : Bool := decide (i ≥ (Nat.shiftRight n 1) + 1)

theorem bhLeft_eq (i : Nat) : bhLeft i = 2 * i + 1 := by
  have : Nat.shiftLeft i 1 = i * 2 ^ 1 := Nat.shiftLeft_eq i 1
  simp [bhLeft, this]; omega

theorem bhRight_eq (i : Nat) : bhRight i = 2 * i + 2 := by
  have : Nat.shiftLeft i 1 = i * 2 ^ 1 := Nat.shiftLeft_eq i 1
  simp [bhRight, this]; omega

theorem bhParent_eq (i : Nat) : bhParent i = (i - 1) / 2 := by
  have : Nat.shiftRight (i - 1) 1 = (i - 1) / 2 ^ 1 := Nat.shiftRight_eq_div_pow _ 1
  simpa [bhParent] using this

theorem bhIsLeaf_iff (n i : Nat) : bhIsLeaf n i = true ↔ n / 2 + 1 ≤ i := by
  simp [bhIsLeaf, Nat.shiftRight_eq_div_pow]

/-- A binary slot the source classifies as a leaf has no in-bounds child. -/
theorem bhIsLeaf_no_child {n i : Nat} (h : bhIsLeaf n i = true) :
    n ≤ 2 * i + 1 := by
  rw [bhIsLeaf_iff] at h
  omega

def khChild (K i j : Nat) : Nat := K * i + j + 1

def khParent (K i : Nat) : Nat := (i - 1) / K

def khIsLeaf (K n i : Nat) : Bool :=
  decide (i > ((n + (usizeMod - 2)) % usizeMod) / K)

/-- A k-ary slot the source classifies as a leaf has no in-bounds child
(true unconditionally for `n < 2`, and via `(n-2)/K` arithmetic otherwise,
provided `n` is a representable `size_t` value). -/
theorem khIsLeaf_no_child {K n i : Nat} (hK : 0 < K) (hn : n < usizeMod)
    (h : khIsLeaf K n i = true) : ∀ j, n ≤ khChild K i j := by
  intro j
  rcases Nat.lt_or_ge n 2 with h2 | h2
  · simp only [khChild]; omega
  · have hw : (n + (usizeMod - 2)) % usizeMod = n - 2 := by
      have h1 : n + (usizeMod - 2) = (n - 2) + usizeMod := by
        have : 2 ≤ usizeMod := by norm_num [usizeMod]
        omega
      rw [h1, Nat.add_mod_right]
      exact Nat.mod_eq_of_lt (by omega)
    simp only [khIsLeaf, hw, decide_eq_true_eq] at h
    have hq : (n - 2) / K + 1 ≤ i := h
    have hdm := Nat.div_add_mod (n - 2) K
    have hmod : (n - 2) % K < K := Nat.mod_lt _ hK
    have h3 : n - 2 < K * ((n - 2) / K + 1) := by
      have hh : K * ((n - 2) / K + 1) = K * ((n - 2) / K) + K := by ring
      omega
    have h4 : K * ((n - 2) / K + 1) ≤ K * i := Nat.mul_le_mul_left K hq
    simp only [khChild]
    omega

/-! ### `comp_est` selection inside `heapify_down` -/

/-- The first `comp_est` update of `BinaryHeap::heapify_down`
(`binary_heap.h` line 72: compare against the left child). -/
def bhC1 (comp : T → T → Bool) (nodes : List T) (i : Nat) : Nat :=
  if bhLeft i < nodes.length && comp (nth nodes i) (nth nodes (bhLeft i))
  then bhLeft i else i

/-- The full `comp_est` scan of `BinaryHeap::heapify_down`
(`binary_heap.h` lines 64-78: left child, then right child). -/
def bhSelect (comp : T → T → Bool) (nodes : List T) (i : Nat) : Nat :=
  if bhRight i < nodes.length &&
      comp (nth nodes (bhC1 comp nodes i)) (nth nodes (bhRight i))
  then bhRight i else bhC1 comp nodes i

/-- The loop body of the `comp_est` scan in `KHeap::heapify_down`
(`k_heap.h` lines 67-72). -/
def khStep (K : Nat) (comp : T → T → Bool) (nodes : List T) (i est j : Nat) :
    Nat :=
  if khChild K i j < nodes.length &&
      comp (nth nodes est) (nth nodes (khChild K i j))
  then khChild K i j else est

/-- The child-selection scan of `KHeap::heapify_down`
(`k_heap.h` lines 63-72): fold the loop body over `j = 0, …, K-1`. -/
def khSelect (K : Nat) (comp : T → T → Bool) (nodes : List T) (i : Nat) : Nat :=
  (List.range K).foldl (khStep K comp nodes i) i

theorem bhSelect_bounds {comp : T → T → Bool} {nodes : List T} {i : Nat}
    (h : bhSelect comp nodes i ≠ i) :
    i < bhSelect comp nodes i ∧ bhSelect comp nodes i < nodes.length := by
  have hl := bhLeft_eq i
  have hr := bhRight_eq i
  unfold bhSelect bhC1 at h ⊢
  split_ifs at h ⊢ with h1 h2 h2 <;>
    simp_all [Bool.and_eq_true, decide_eq_true_eq] <;> omega

theorem khFold_bounds (comp : T → T → Bool) (nodes : List T) (K i : Nat) :
    ∀ (js : List Nat) (est : Nat),
      (∀ j ∈ js, i < khChild K i j) →
      (est = i ∨ (i < est ∧ est < nodes.length)) →
      (js.foldl (khStep K comp nodes i) est) = i ∨
      (i < (js.foldl (khStep K comp nodes i) est) ∧
       (js.foldl (khStep K comp nodes i) est) < nodes.length) := by
  intro js
  induction js with
  | nil => intro est _ hest; simpa using hest
  | cons j js ih =>
    intro est hjs hest
    simp only [List.foldl_cons]
    apply ih
    · intro j' hj'; exact hjs j' (List.mem_cons_of_mem _ hj')
    · unfold khStep
      split_ifs with hg
      · simp only [Bool.and_eq_true, decide_eq_true_eq] at hg
        exact Or.inr ⟨hjs j (List.mem_cons_self _ _), hg.1⟩
      · exact hest

theorem khSelect_bounds {comp : T → T → Bool} {nodes : List T} {K i : Nat}
    (h : khSelect K comp nodes i ≠ i) :
    i < khSelect K comp nodes i ∧ khSelect K comp nodes i < nodes.length := by
  have := khFold_bounds comp nodes K i (List.range K) i
    (fun j hj => by
      have hjK : j < K := List.mem_range.mp hj
      have hK : 1 ≤ K := by omega
      have : i ≤ K * i := Nat.le_mul_of_pos_left i (by omega)
      simp only [khChild]; omega)
    (Or.inl rfl)
  rcases this with h1 | h1
  · exact absurd h1 h
  · exact h1

/-! ### `heapify_down` (`binary_heap.h` lines 60-87, `k_heap.h` lines 57-81) -/

def bhHeapifyDown (comp : T → T → Bool) (nodes : List T) (i : Nat) : List T :=
  if bhIsLeaf nodes.length i then nodes
  else if h : bhSelect comp nodes i = i then nodes
  else bhHeapifyDown comp (swapL nodes i (bhSelect comp nodes i))
    (bhSelect comp nodes i)
termination_by nodes.length - i
decreasing_by
  have hb := bhSelect_bounds h
  simp only [swapL_length]
  omega

def khHeapifyDown (K : Nat) (comp : T → T → Bool) (nodes : List T) (i : Nat) :
    List T :=
  if khIsLeaf K nodes.length i then nodes
  else if h : khSelect K comp nodes i = i then nodes
  else khHeapifyDown K comp (swapL nodes i (khSelect K comp nodes i))
    (khSelect K comp nodes i)
termination_by nodes.length - i
decreasing_by
  have hb := khSelect_bounds h
  simp only [swapL_length]
  omega

theorem bhHeapifyDown_length (comp : T → T → Bool) (nodes : List T) (i : Nat) :
    (bhHeapifyDown comp nodes i).length = nodes.length := by
  induction nodes, i using bhHeapifyDown.induct comp with
  | case1 nodes i h => rw [bhHeapifyDown, if_pos h]
  | case2 nodes i h hc =>
    rw [bhHeapifyDown, if_neg h, dif_pos hc]
  | case3 nodes i h hc ih =>
    rw [bhHeapifyDown, if_neg h, dif_neg hc]
    simpa using ih

theorem khHeapifyDown_length (K : Nat) (comp : T → T → Bool) (nodes : List T)
    (i : Nat) : (khHeapifyDown K comp nodes i).length = nodes.length := by
  induction nodes, i using khHeapifyDown.induct K comp with
  | case1 nodes i h => rw [khHeapifyDown, if_pos h]
  | case2 nodes i h hc =>
    rw [khHeapifyDown, if_neg h, dif_pos hc]
  | case3 nodes i h hc ih =>
    rw [khHeapifyDown, if_neg h, dif_neg hc]
    simpa using ih

theorem bhHeapifyDown_perm [DecidableEq T] (comp : T → T → Bool) (nodes : List T)
    (i : Nat) : (bhHeapifyDown comp nodes i).Perm nodes := by
  induction nodes, i using bhHeapifyDown.induct comp with
  | case1 nodes i h => rw [bhHeapifyDown, if_pos h]
  | case2 nodes i h hc =>
    rw [bhHeapifyDown, if_neg h, dif_pos hc]
  | case3 nodes i h hc ih =>
    rw [bhHeapifyDown, if_neg h, dif_neg hc]
    have hb := bhSelect_bounds hc
    exact ih.trans (swapL_perm nodes (by omega) hb.2)

theorem khHeapifyDown_perm [DecidableEq T] (K : Nat) (comp : T → T → Bool)
    (nodes : List T) (i : Nat) : (khHeapifyDown K comp nodes i).Perm nodes := by
  induction nodes, i using khHeapifyDown.induct K comp with
  | case1 nodes i h => rw [khHeapifyDown, if_pos h]
  | case2 nodes i h hc =>
    rw [khHeapifyDown, if_neg h, dif_pos hc]
  | case3 nodes i h hc ih =>
    rw [khHeapifyDown, if_neg h, dif_neg hc]
    have hb := khSelect_bounds hc
    exact ih.trans (swapL_perm nodes (by omega) hb.2)

/-! ### `heapify_up` (`heap.h` lines 66-74, with the backend's virtual `parent`) -/

def bhHeapifyUp (comp : T → T → Bool) (nodes : List T) (i : Nat) : List T :=
  if h : 0 < i ∧ comp (nth nodes (bhParent i)) (nth nodes i) = true then
    bhHeapifyUp comp (swapL nodes i (bhParent i)) (bhParent i)
  else nodes
termination_by i
decreasing_by
  rw [bhParent_eq]
  have := Nat.div_le_self (i - 1) 2
  omega

def khHeapifyUp (K : Nat) (comp : T → T → Bool) (nodes : List T) (i : Nat) :
    List T :=
  if h : 0 < i ∧ comp (nth nodes (khParent K i)) (nth nodes i) = true then
    khHeapifyUp K comp (swapL nodes i (khParent K i)) (khParent K i)
  else nodes
termination_by i
decreasing_by
  simp only [khParent]
  have := Nat.div_le_self (i - 1) K
  omega

theorem bhHeapifyUp_length (comp : T → T → Bool) (nodes : List T) (i : Nat) :
    (bhHeapifyUp comp nodes i).length = nodes.length := by
  induction nodes, i using bhHeapifyUp.induct comp with
  | case1 nodes i h ih => rw [bhHeapifyUp, dif_pos h]; simpa using ih
  | case2 nodes i h => rw [bhHeapifyUp, dif_neg h]

theorem khHeapifyUp_length (K : Nat) (comp : T → T → Bool) (nodes : List T)
    (i : Nat) : (khHeapifyUp K comp nodes i).length = nodes.length := by
  induction nodes, i using khHeapifyUp.induct K comp with
  | case1 nodes i h ih => rw [khHeapifyUp, dif_pos h]; simpa using ih
  | case2 nodes i h => rw [khHeapifyUp, dif_neg h]

theorem bhHeapifyUp_perm [DecidableEq T] (comp : T → T → Bool) (nodes : List T)
    (i : Nat) (hi : i < nodes.length) : (bhHeapifyUp comp nodes i).Perm nodes := by
  induction nodes, i using bhHeapifyUp.induct comp with
  | case1 nodes i h ih =>
    rw [bhHeapifyUp, dif_pos h]
    have hp : bhParent i < i := by
      rw [bhParent_eq]; have := Nat.div_le_self (i - 1) 2; omega
    exact (ih (by simpa using lt_trans hp hi)).trans
      (swapL_perm nodes hi (lt_trans hp hi))
  | case2 nodes i h => rw [bhHeapifyUp, dif_neg h]

theorem khHeapifyUp_perm [DecidableEq T] (K : Nat) (comp : T → T → Bool)
    (nodes : List T) (i : Nat) (hi : i < nodes.length) :
    (khHeapifyUp K comp nodes i).Perm nodes := by
  induction nodes, i using khHeapifyUp.induct K comp with
  | case1 nodes i h ih =>
    rw [khHeapifyUp, dif_pos h]
    have hp : khParent K i < i := by
      simp only [khParent]; have := Nat.div_le_self (i - 1) K; omega
    exact (ih (by simpa using lt_trans hp hi)).trans
      (swapL_perm nodes hi (lt_trans hp hi))
  | case2 nodes i h => rw [khHeapifyUp, dif_neg h]

/-! ### `build_heap` (`binary_heap.h` lines 93-97, `k_heap.h` lines 87-91)

`for (i = start; i > 0; --i) heapify_down(i - 1)` becomes a countdown. -/

def bhBuildLoop (comp : T → T → Bool) (nodes : List T) : Nat → List T
  | 0 => nodes
  | c + 1 => bhBuildLoop comp (bhHeapifyDown comp nodes c) c

def bhBuildHeap (comp : T → T → Bool) (nodes : List T) : List T :=
  bhBuildLoop comp nodes (Nat.shiftRight nodes.length 1 + 1)

def khBuildLoop (K : Nat) (comp : T → T → Bool) (nodes : List T) : Nat → List T
  | 0 => nodes
  | c + 1 => khBuildLoop K comp (khHeapifyDown K comp nodes c) c

def khBuildHeap (K : Nat) (comp : T → T → Bool) (nodes : List T) : List T :=
  khBuildLoop K comp nodes (nodes.length / K + 1)

theorem bhBuildLoop_length (comp : T → T → Bool) (nodes : List T) (c : Nat) :
    (bhBuildLoop comp nodes c).length = nodes.length := by
  induction c generalizing nodes with
  | zero => rfl
  | succ c ih => rw [bhBuildLoop, ih, bhHeapifyDown_length]

theorem khBuildLoop_length (K : Nat) (comp : T → T → Bool) (nodes : List T)
    (c : Nat) : (khBuildLoop K comp nodes c).length = nodes.length := by
  induction c generalizing nodes with
  | zero => rfl
  | succ c ih => rw [khBuildLoop, ih, khHeapifyDown_length]

theorem bhBuildLoop_perm [DecidableEq T] (comp : T → T → Bool) (nodes : List T)
    (c : Nat) : (bhBuildLoop comp nodes c).Perm nodes := by
  induction c generalizing nodes with
  | zero => exact List.Perm.refl _
  | succ c ih => exact (ih _).trans (bhHeapifyDown_perm comp nodes c)

theorem khBuildLoop_perm [DecidableEq T] (K : Nat) (comp : T → T → Bool)
    (nodes : List T) (c : Nat) : (khBuildLoop K comp nodes c).Perm nodes := by
  induction c generalizing nodes with
  | zero => exact List.Perm.refl _
  | succ c ih => exact (ih _).trans (khHeapifyDown_perm K comp nodes c)

/-! ### Public heap operations (`heap.h` lines 92-135)

`top()`/`pop()` access `nodes_.at(0)` / the last element of an empty vector
when the heap is empty; the spec's error taxonomy names this failure
`PreconditionViolation`. -/

inductive HeapErr : Type where
  | preconditionViolation : HeapErr
deriving DecidableEq

/-- `Heap::heapify`: build only when the constructor was not promised a heap. -/
def bhMakeHeap (isHeap : Bool) (comp : T → T → Bool) (nodes : List T) : List T :=
  if isHeap then nodes else bhBuildHeap comp nodes

def khMakeHeap (K : Nat) (isHeap : Bool) (comp : T → T → Bool)
    (nodes : List T) : List T :=
  if isHeap then nodes else khBuildHeap K comp nodes

/-- `Heap::top`: `nodes_.at(0)`. -/
def heapTop (nodes : List T) : Except HeapErr T :=
  match nodes with
  | [] => Except.error HeapErr.preconditionViolation
  | x :: _ => Except.ok x

/-- The sequence manipulation shared by every `pop`: overwrite the root with
the last element, then drop the last element. -/
def popSeq (nodes : List T) : List T :=
  (nodes.set 0 (nth nodes (nodes.length - 1))).dropLast

/-- `Heap::pop` for the binary backend. -/
def bhPop (comp : T → T → Bool) (nodes : List T) :
    Except HeapErr (List T) :=
  match nodes with
  | [] => Except.error HeapErr.preconditionViolation
  | _ :: _ => Except.ok (bhHeapifyDown comp (popSeq nodes) 0)

/-- `Heap::pop` for the k-ary backend. -/
def khPop (K : Nat) (comp : T → T → Bool) (nodes : List T) :
    Except HeapErr (List T) :=
  match nodes with
  | [] => Except.error HeapErr.preconditionViolation
  | _ :: _ => Except.ok (khHeapifyDown K comp (popSeq nodes) 0)

/-- `Heap::push`: append, then sift the new last slot up. -/
def bhPush (comp : T → T → Bool) (nodes : List T) (x : T) : List T :=
  bhHeapifyUp comp (nodes ++ [x]) nodes.length

def khPush (K : Nat) (comp : T → T → Bool) (nodes : List T) (x : T) : List T :=
  khHeapifyUp K comp (nodes ++ [x]) nodes.length

@[simp] theorem popSeq_length (nodes : List T) :
    (popSeq nodes).length = nodes.length - 1 := by
  simp [popSeq]

/-- Repeated `top(); pop()` until empty. -/
def bhPopAll (comp : T → T → Bool) (nodes : List T) : List T :=
  match nodes with
  | [] => []
  | x :: rest =>
    x :: bhPopAll comp (bhHeapifyDown comp (popSeq (x :: rest)) 0)
termination_by nodes.length
decreasing_by
  simp [bhHeapifyDown_length]

def khPopAll (K : Nat) (comp : T → T → Bool) (nodes : List T) : List T :=
  match nodes with
  | [] => []
  | x :: rest =>
    x :: khPopAll K comp (khHeapifyDown K comp (popSeq (x :: rest)) 0)
termination_by nodes.length
decreasing_by
  simp [khHeapifyDown_length]

/-! ### Parent/child arithmetic facts -/

theorem khParent_lt {K c : Nat} (hc : 0 < c) : khParent K c < c := by
  have := Nat.div_le_self (c - 1) K
  simp only [khParent]
  omega

theorem khParent_child {K i j : Nat} (hj : j < K) :
    khParent K (khChild K i j) = i := by
  have hK : 0 < K := by omega
  simp only [khParent, khChild]
  have h1 : K * i + j + 1 - 1 = K * i + j := by omega
  rw [h1, Nat.mul_add_div hK, Nat.div_eq_of_lt hj]
  omega

theorem khChild_parent {K c : Nat} (hK : 0 < K) (hc : 0 < c) :
    khChild K (khParent K c) ((c - 1) % K) = c ∧ (c - 1) % K < K := by
  refine ⟨?_, Nat.mod_lt _ hK⟩
  have := Nat.div_add_mod (c - 1) K
  simp only [khChild, khParent]
  omega

theorem khChild_gt {K i j : Nat} (hK : 0 < K) : i < khChild K i j := by
  have : i ≤ K * i := Nat.le_mul_of_pos_left i hK
  simp only [khChild]
  omega

/-! ### The heap property

The spec states it child-wise: for every slot `i` and in-bounds child `c`,
`comp(nodes[i], nodes[c])` is false.  `heapFrom` is the parent-edge view
restricted to parents `≥ start`; `heapFrom 0` is the full property. -/

def heapProp (K : Nat) (comp : T → T → Bool) (nodes : List T) : Prop :=
  ∀ i, i < nodes.length → ∀ j, j < K → khChild K i j < nodes.length →
    comp (nth nodes i) (nth nodes (khChild K i j)) = false

instance (K : Nat) (comp : T → T → Bool) (nodes : List T) :
    Decidable (heapProp K comp nodes) := by
  unfold heapProp
  infer_instance

def heapFrom (K : Nat) (comp : T → T → Bool) (nodes : List T) (start : Nat) :
    Prop :=
  ∀ c, c < nodes.length → 0 < c → start ≤ khParent K c →
    comp (nth nodes (khParent K c)) (nth nodes c) = false

theorem heapProp_iff_heapFrom (K : Nat) (hK : 0 < K) (comp : T → T → Bool)
    (nodes : List T) : heapProp K comp nodes ↔ heapFrom K comp nodes 0 := by
  constructor
  · intro hp c hc hc0 _
    obtain ⟨hceq, hjK⟩ := khChild_parent (K := K) hK hc0
    have hplt : khParent K c < c := khParent_lt hc0
    have := hp (khParent K c) (by omega) ((c - 1) % K) hjK (by rw [hceq]; exact hc)
    rwa [hceq] at this
  · intro hf i _ j hj hcl
    have := hf (khChild K i j) hcl (by simp [khChild]) (Nat.zero_le _)
    rwa [khParent_child hj] at this

/-! ### Comparator assumptions

`std::less`/`std::greater` on a totally ordered type satisfy both:
`compAsymm` is asymmetry, `compNegTrans` is transitivity of the negation. -/

def compAsymm (comp : T → T → Bool) : Prop :=
  ∀ a b : T, comp a b = true → comp b a = false

def compNegTrans (comp : T → T → Bool) : Prop :=
  ∀ a b c : T, comp a b = false → comp b c = false → comp a c = false

theorem comp_irrefl {comp : T → T → Bool} (Hasym : compAsymm comp) (a : T) :
    comp a a = false := by
  by_cases h : comp a a = true
  · exact (Hasym a a h)
  · simpa using h

/-! ### Sift-down invariant

`DownInv start hole`: every parent edge in the region `parent ≥ start` is
ordered except possibly the edges out of `hole`, and (once the hole has moved
below `start`) the hole's children are dominated by the hole's parent. -/

structure DownInv (K : Nat) (comp : T → T → Bool) (nodes : List T)
    (start hole : Nat) : Prop where
  lower : start ≤ hole
  heap : ∀ c, c < nodes.length → 0 < c → start ≤ khParent K c →
    khParent K c ≠ hole →
    comp (nth nodes (khParent K c)) (nth nodes c) = false
  upper : start < hole → ∀ c, c < nodes.length → 0 < c → khParent K c = hole →
    comp (nth nodes (khParent K hole)) (nth nodes c) = false

theorem downInv_init {K : Nat} {comp : T → T → Bool} {nodes : List T} {i : Nat}
    (hf : heapFrom K comp nodes (i + 1)) : DownInv K comp nodes i i where
  lower := le_refl i
  heap := fun c hc hc0 hge hne => hf c hc hc0 (by omega)
  upper := fun h => absurd h (by omega)

/-- Terminal case: the hole has no in-bounds children. -/
theorem downInv_done_no_child {K : Nat} {comp : T → T → Bool} {nodes : List T}
    {start i : Nat} (hK : 0 < K) (inv : DownInv K comp nodes start i)
    (hnc : ∀ j, nodes.length ≤ khChild K i j) :
    heapFrom K comp nodes start := by
  intro c hc hc0 hge
  by_cases hp : khParent K c = i
  · obtain ⟨hceq, hjK⟩ := khChild_parent (K := K) hK hc0
    rw [hp] at hceq
    have := hnc ((c - 1) % K)
    omega
  · exact inv.heap c hc hc0 hge hp

/-- Terminal case: the hole already dominates all of its in-bounds children. -/
theorem downInv_done_self {K : Nat} {comp : T → T → Bool} {nodes : List T}
    {start i : Nat} (hK : 0 < K) (inv : DownInv K comp nodes start i)
    (hdom : ∀ j, j < K → khChild K i j < nodes.length →
      comp (nth nodes i) (nth nodes (khChild K i j)) = false) :
    heapFrom K comp nodes start := by
  intro c hc hc0 hge
  by_cases hp : khParent K c = i
  · obtain ⟨hceq, hjK⟩ := khChild_parent (K := K) hK hc0
    rw [hp] at hceq
    have := hdom ((c - 1) % K) hjK (by rw [hceq]; exact hc)
    rw [hceq] at this
    rw [hp]
    exact this
  · exact inv.heap c hc hc0 hge hp

/-- One swap step of `heapify_down`: the hole moves to the winning child. -/
theorem downInv_step {K : Nat} {comp : T → T → Bool} {nodes : List T}
    {start i c : Nat} (Hasym : compAsymm comp) (Hnt : compNegTrans comp)
    (hK : 0 < K) (inv : DownInv K comp nodes start i)
    (hci : i < c) (hcl : c < nodes.length) (hcp : khParent K c = i)
    (hdom : ∀ j, j < K → khChild K i j < nodes.length →
      comp (nth nodes c) (nth nodes (khChild K i j)) = false)
    (hdomi : comp (nth nodes c) (nth nodes i) = false) :
    DownInv K comp (swapL nodes i c) start c := by
  have hil : i < nodes.length := lt_trans hci hcl
  have hlen : (swapL nodes i c).length = nodes.length := swapL_length nodes i c
  have hnl : nth (swapL nodes i c) i = nth nodes c := nth_swapL_left nodes hil
  have hnr : nth (swapL nodes i c) c = nth nodes i := nth_swapL_right nodes hcl
  have hsi : start ≤ i := inv.lower
  refine ⟨by omega, ?_, ?_⟩
  · -- region edges away from the new hole `c`
    intro x hx hx0 hge hne
    rw [hlen] at hx
    have hpx : khParent K x < x := khParent_lt hx0
    by_cases hpi : khParent K x = i
    · -- x is a child of the old hole
      rw [hpi, hnl]
      by_cases hxc : x = c
      · rw [hxc, hnr]; exact hdomi
      · obtain ⟨hceq, hjK⟩ := khChild_parent (K := K) hK hx0
        rw [hpi] at hceq
        rw [nth_swapL_other nodes (by omega) hxc]
        have := hdom ((x - 1) % K) hjK (by rw [hceq]; exact hx)
        rwa [hceq] at this
    · -- the old hole's slot now holds the winner; other edges are unchanged
      have hpc : khParent K x ≠ c := hne
      rw [nth_swapL_other nodes hpi hpc]
      by_cases hxi : x = i
      · -- edge into the old hole: use the `upper` field
        subst hxi
        rw [hnl]
        have hstart : start < x := by omega
        exact inv.upper hstart c hcl (by omega) hcp
      · by_cases hxc : x = c
        · subst hxc
          rw [hcp] at hpi
          exact absurd rfl hpi
        · rw [nth_swapL_other nodes hxi hxc]
          exact inv.heap x hx hx0 hge hpi
  · -- children of the new hole are below the new hole's parent (= old winner)
    intro _ x hx hx0 hpx
    rw [hlen] at hx
    rw [hcp, hnl]
    have hxltc : khParent K x < x := khParent_lt hx0
    have hxi : x ≠ i := by
      intro h
      rw [h] at hpx
      have h2 : khParent K i < i := khParent_lt (h ▸ hx0)
      omega
    by_cases hxc : x = c
    · rw [hxc] at hpx
      have h2 : khParent K c < c := khParent_lt (hxc ▸ hx0)
      omega
    · rw [nth_swapL_other nodes hxi hxc]
      have := inv.heap x hx hx0 (by omega) (by omega)
      rwa [hpx] at this

/-! ### What the `comp_est` scans select -/

theorem khFold_spec {K : Nat} {comp : T → T → Bool} (Hasym : compAsymm comp)
    (Hnt : compNegTrans comp) (nodes : List T) (i : Nat) :
    ∀ (js : List Nat) (est : Nat), (∀ j ∈ js, j < K) →
      (est = i ∨ ((∃ j, j < K ∧ est = khChild K i j) ∧ est < nodes.length ∧
        comp (nth nodes est) (nth nodes i) = false)) →
      ((js.foldl (khStep K comp nodes i) est = est) ∨
        comp (nth nodes (js.foldl (khStep K comp nodes i) est))
          (nth nodes est) = false) ∧
      ((js.foldl (khStep K comp nodes i) est = i) ∨
        ((∃ j, j < K ∧ js.foldl (khStep K comp nodes i) est = khChild K i j) ∧
         js.foldl (khStep K comp nodes i) est < nodes.length ∧
         comp (nth nodes (js.foldl (khStep K comp nodes i) est))
           (nth nodes i) = false)) ∧
      (∀ j ∈ js, khChild K i j < nodes.length →
        comp (nth nodes (js.foldl (khStep K comp nodes i) est))
          (nth nodes (khChild K i j)) = false) := by
  intro js
  induction js with
  | nil =>
    intro est _ hA
    exact ⟨Or.inl rfl, by simpa using hA, by simp⟩
  | cons j js ih =>
    intro est hjs hA
    have hjK : j < K := hjs j (List.mem_cons_self _ _)
    have hjs' : ∀ x ∈ js, x < K := fun x hx => hjs x (List.mem_cons_of_mem _ hx)
    simp only [List.foldl_cons]
    by_cases hg : (decide (khChild K i j < nodes.length) &&
        comp (nth nodes est) (nth nodes (khChild K i j))) = true
    · have hgl : khChild K i j < nodes.length := by
        have h1 := hg
        simp only [Bool.and_eq_true, decide_eq_true_eq] at h1
        exact h1.1
      have hgc : comp (nth nodes est) (nth nodes (khChild K i j)) = true := by
        have h1 := hg
        simp only [Bool.and_eq_true, decide_eq_true_eq] at h1
        exact h1.2
      have hstep : khStep K comp nodes i est j = khChild K i j := by
        unfold khStep
        rw [if_pos hg]
      have hAc : comp (nth nodes (khChild K i j)) (nth nodes i) = false := by
        rcases hA with rfl | ⟨_, _, hcmp⟩
        · exact Hasym _ _ hgc
        · exact Hnt _ _ _ (Hasym _ _ hgc) hcmp
      obtain ⟨L1, L2, L3⟩ := ih (khStep K comp nodes i est j) hjs'
        (by rw [hstep]; exact Or.inr ⟨⟨j, hjK, rfl⟩, hgl, hAc⟩)
      rw [hstep] at L1 L2 L3 ⊢
      refine ⟨?_, L2, ?_⟩
      · rcases L1 with h1 | h1
        · rw [h1]
          exact Or.inr (Hasym _ _ hgc)
        · exact Or.inr (Hnt _ _ _ h1 (Hasym _ _ hgc))
      · intro x hx hxl
        rcases List.mem_cons.mp hx with rfl | hx'
        · rcases L1 with h1 | h1
          · rw [h1]
            exact comp_irrefl Hasym _
          · exact h1
        · exact L3 x hx' hxl
    · have hstep : khStep K comp nodes i est j = est := by
        unfold khStep
        rw [if_neg hg]
      obtain ⟨L1, L2, L3⟩ := ih (khStep K comp nodes i est j) hjs'
        (by rw [hstep]; exact hA)
      rw [hstep] at L1 L2 L3 ⊢
      refine ⟨L1, L2, ?_⟩
      intro x hx hxl
      rcases List.mem_cons.mp hx with rfl | hx'
      · have hcf : comp (nth nodes est) (nth nodes (khChild K i x)) = false := by
          by_cases hcc : comp (nth nodes est) (nth nodes (khChild K i x)) = true
          · exact absurd (by simp [hxl, hcc]) hg
          · simpa using hcc
        rcases L1 with h1 | h1
        · rw [h1]
          exact hcf
        · exact Hnt _ _ _ h1 hcf
      · exact L3 x hx' hxl

theorem khSelect_dom {K : Nat} {comp : T → T → Bool} (Hasym : compAsymm comp)
    (Hnt : compNegTrans comp) (nodes : List T) (i : Nat) :
    ∀ j, j < K → khChild K i j < nodes.length →
      comp (nth nodes (khSelect K comp nodes i))
        (nth nodes (khChild K i j)) = false := by
  intro j hj hl
  obtain ⟨_, _, L3⟩ := khFold_spec Hasym Hnt nodes i (List.range K) i
    (fun x hx => List.mem_range.mp hx) (Or.inl rfl)
  exact L3 j (List.mem_range.mpr hj) hl

theorem khSelect_child {K : Nat} {comp : T → T → Bool} (Hasym : compAsymm comp)
    (Hnt : compNegTrans comp) (nodes : List T) (i : Nat)
    (h : khSelect K comp nodes i ≠ i) :
    khParent K (khSelect K comp nodes i) = i ∧
    comp (nth nodes (khSelect K comp nodes i)) (nth nodes i) = false := by
  have hs : khSelect K comp nodes i =
      (List.range K).foldl (khStep K comp nodes i) i := rfl
  obtain ⟨_, L2, _⟩ := khFold_spec Hasym Hnt nodes i (List.range K) i
    (fun x hx => List.mem_range.mp hx) (Or.inl rfl)
  rw [← hs] at L2
  rcases L2 with h2 | ⟨⟨j, hjK, heq⟩, _, hcmp⟩
  · exact absurd h2 h
  · refine ⟨?_, hcmp⟩
    rw [heq]
    exact khParent_child hjK

theorem khChild_two_zero (i : Nat) : khChild 2 i 0 = bhLeft i := by
  rw [bhLeft_eq]
  simp [khChild]

theorem khChild_two_one (i : Nat) : khChild 2 i 1 = bhRight i := by
  rw [bhRight_eq]
  simp only [khChild]

theorem bhSelect_dom {comp : T → T → Bool} (Hasym : compAsymm comp)
    (Hnt : compNegTrans comp) (nodes : List T) (i : Nat) :
    ∀ j, j < 2 → khChild 2 i j < nodes.length →
      comp (nth nodes (bhSelect comp nodes i))
        (nth nodes (khChild 2 i j)) = false := by
  intro j hj hl
  by_cases hg1 : (decide (bhLeft i < nodes.length) &&
      comp (nth nodes i) (nth nodes (bhLeft i))) = true
  · have e1 : bhC1 comp nodes i = bhLeft i := by
      unfold bhC1
      rw [if_pos hg1]
    have h1c : comp (nth nodes i) (nth nodes (bhLeft i)) = true := by
      simp only [Bool.and_eq_true, decide_eq_true_eq] at hg1
      exact hg1.2
    by_cases hg2 : (decide (bhRight i < nodes.length) &&
        comp (nth nodes (bhC1 comp nodes i)) (nth nodes (bhRight i))) = true
    · have hsel : bhSelect comp nodes i = bhRight i := by
        unfold bhSelect
        rw [if_pos hg2]
      rw [e1] at hg2
      have h2c : comp (nth nodes (bhLeft i)) (nth nodes (bhRight i)) = true := by
        simp only [Bool.and_eq_true, decide_eq_true_eq] at hg2
        exact hg2.2
      rw [hsel]
      interval_cases j
      · rw [khChild_two_zero]
        exact Hasym _ _ h2c
      · rw [khChild_two_one]
        exact comp_irrefl Hasym _
    · have hsel : bhSelect comp nodes i = bhLeft i := by
        unfold bhSelect
        rw [if_neg hg2, e1]
      rw [e1] at hg2
      rw [hsel]
      interval_cases j
      · rw [khChild_two_zero]
        exact comp_irrefl Hasym _
      · rw [khChild_two_one] at hl ⊢
        by_cases hcc : comp (nth nodes (bhLeft i)) (nth nodes (bhRight i)) = true
        · exact absurd (by simp [hl, hcc]) hg2
        · simpa using hcc
  · have e1 : bhC1 comp nodes i = i := by
      unfold bhC1
      rw [if_neg hg1]
    by_cases hg2 : (decide (bhRight i < nodes.length) &&
        comp (nth nodes (bhC1 comp nodes i)) (nth nodes (bhRight i))) = true
    · have hsel : bhSelect comp nodes i = bhRight i := by
        unfold bhSelect
        rw [if_pos hg2]
      rw [e1] at hg2
      have h2c : comp (nth nodes i) (nth nodes (bhRight i)) = true := by
        simp only [Bool.and_eq_true, decide_eq_true_eq] at hg2
        exact hg2.2
      rw [hsel]
      interval_cases j
      · rw [khChild_two_zero] at hl ⊢
        have hcf : comp (nth nodes i) (nth nodes (bhLeft i)) = false := by
          by_cases hcc : comp (nth nodes i) (nth nodes (bhLeft i)) = true
          · exact absurd (by simp [hl, hcc]) hg1
          · simpa using hcc
        exact Hnt _ _ _ (Hasym _ _ h2c) hcf
      · rw [khChild_two_one]
        exact comp_irrefl Hasym _
    · have hsel : bhSelect comp nodes i = i := by
        unfold bhSelect
        rw [if_neg hg2, e1]
      rw [e1] at hg2
      rw [hsel]
      interval_cases j
      · rw [khChild_two_zero] at hl ⊢
        by_cases hcc : comp (nth nodes i) (nth nodes (bhLeft i)) = true
        · exact absurd (by simp [hl, hcc]) hg1
        · simpa using hcc
      · rw [khChild_two_one] at hl ⊢
        by_cases hcc : comp (nth nodes i) (nth nodes (bhRight i)) = true
        · exact absurd (by simp [hl, hcc]) hg2
        · simpa using hcc

theorem bhSelect_child {comp : T → T → Bool} (Hasym : compAsymm comp)
    (Hnt : compNegTrans comp) (nodes : List T) (i : Nat)
    (h : bhSelect comp nodes i ≠ i) :
    khParent 2 (bhSelect comp nodes i) = i ∧
    comp (nth nodes (bhSelect comp nodes i)) (nth nodes i) = false := by
  by_cases hg1 : (decide (bhLeft i < nodes.length) &&
      comp (nth nodes i) (nth nodes (bhLeft i))) = true
  · have e1 : bhC1 comp nodes i = bhLeft i := by
      unfold bhC1
      rw [if_pos hg1]
    have h1c : comp (nth nodes i) (nth nodes (bhLeft i)) = true := by
      simp only [Bool.and_eq_true, decide_eq_true_eq] at hg1
      exact hg1.2
    by_cases hg2 : (decide (bhRight i < nodes.length) &&
        comp (nth nodes (bhC1 comp nodes i)) (nth nodes (bhRight i))) = true
    · have hsel : bhSelect comp nodes i = bhRight i := by
        unfold bhSelect
        rw [if_pos hg2]
      rw [e1] at hg2
      have h2c : comp (nth nodes (bhLeft i)) (nth nodes (bhRight i)) = true := by
        simp only [Bool.and_eq_true, decide_eq_true_eq] at hg2
        exact hg2.2
      rw [hsel]
      constructor
      · rw [← khChild_two_one]
        exact khParent_child (by omega)
      · exact Hnt _ _ _ (Hasym _ _ h2c) (Hasym _ _ h1c)
    · have hsel : bhSelect comp nodes i = bhLeft i := by
        unfold bhSelect
        rw [if_neg hg2, e1]
      rw [hsel]
      constructor
      · rw [← khChild_two_zero]
        exact khParent_child (by omega)
      · exact Hasym _ _ h1c
  · have e1 : bhC1 comp nodes i = i := by
      unfold bhC1
      rw [if_neg hg1]
    by_cases hg2 : (decide (bhRight i < nodes.length) &&
        comp (nth nodes (bhC1 comp nodes i)) (nth nodes (bhRight i))) = true
    · have hsel : bhSelect comp nodes i = bhRight i := by
        unfold bhSelect
        rw [if_pos hg2]
      rw [e1] at hg2
      have h2c : comp (nth nodes i) (nth nodes (bhRight i)) = true := by
        simp only [Bool.and_eq_true, decide_eq_true_eq] at hg2
        exact hg2.2
      rw [hsel]
      constructor
      · rw [← khChild_two_one]
        exact khParent_child (by omega)
      · exact Hasym _ _ h2c
    · have hsel : bhSelect comp nodes i = i := by
        unfold bhSelect
        rw [if_neg hg2, e1]
      exact absurd hsel h

/-! ### `heapify_down` establishes the heap property on its region -/

theorem khHeapifyDown_heapFrom {K : Nat} {comp : T → T → Bool}
    (Hasym : compAsymm comp) (Hnt : compNegTrans comp) (hK : 0 < K) :
    ∀ (nodes : List T) (i start : Nat), nodes.length < usizeMod →
      DownInv K comp nodes start i →
      heapFrom K comp (khHeapifyDown K comp nodes i) start := by
  intro nodes i
  induction nodes, i using khHeapifyDown.induct K comp with
  | case1 nodes i hleaf =>
    intro start hn inv
    rw [khHeapifyDown, if_pos hleaf]
    exact downInv_done_no_child hK inv (khIsLeaf_no_child hK hn hleaf)
  | case2 nodes i hleaf hsel =>
    intro start hn inv
    rw [khHeapifyDown, if_neg hleaf, dif_pos hsel]
    refine downInv_done_self hK inv ?_
    intro j hj hl
    have := khSelect_dom Hasym Hnt nodes i j hj hl
    rwa [hsel] at this
  | case3 nodes i hleaf hsel ih =>
    intro start hn inv
    rw [khHeapifyDown, if_neg hleaf, dif_neg hsel]
    have hb := khSelect_bounds hsel
    obtain ⟨hcp, hci⟩ := khSelect_child Hasym Hnt nodes i hsel
    exact ih start (by simpa using hn)
      (downInv_step Hasym Hnt hK inv hb.1 hb.2 hcp
        (khSelect_dom Hasym Hnt nodes i) hci)

theorem bhHeapifyDown_heapFrom {comp : T → T → Bool}
    (Hasym : compAsymm comp) (Hnt : compNegTrans comp) :
    ∀ (nodes : List T) (i start : Nat),
      DownInv 2 comp nodes start i →
      heapFrom 2 comp (bhHeapifyDown comp nodes i) start := by
  intro nodes i
  induction nodes, i using bhHeapifyDown.induct comp with
  | case1 nodes i hleaf =>
    intro start inv
    rw [bhHeapifyDown, if_pos hleaf]
    refine downInv_done_no_child (by omega) inv ?_
    intro j
    have := bhIsLeaf_no_child hleaf
    simp only [khChild]
    omega
  | case2 nodes i hleaf hsel =>
    intro start inv
    rw [bhHeapifyDown, if_neg hleaf, dif_pos hsel]
    refine downInv_done_self (by omega) inv ?_
    intro j hj hl
    have := bhSelect_dom Hasym Hnt nodes i j hj hl
    rwa [hsel] at this
  | case3 nodes i hleaf hsel ih =>
    intro start inv
    rw [bhHeapifyDown, if_neg hleaf, dif_neg hsel]
    have hb := bhSelect_bounds hsel
    obtain ⟨hcp, hci⟩ := bhSelect_child Hasym Hnt nodes i hsel
    exact ih start
      (downInv_step Hasym Hnt (by omega) inv hb.1 hb.2 hcp
        (bhSelect_dom Hasym Hnt nodes i) hci)

/-! ### Sift-up invariant and `heapify_up` correctness -/

structure UpInv (K : Nat) (comp : T → T → Bool) (nodes : List T)
    (hole : Nat) : Prop where
  heap : ∀ c, c < nodes.length → 0 < c → c ≠ hole →
    comp (nth nodes (khParent K c)) (nth nodes c) = false
  hchild : 0 < hole → ∀ c, c < nodes.length → 0 < c → khParent K c = hole →
    comp (nth nodes (khParent K hole)) (nth nodes c) = false

/-- A valid heap gives the sift-up invariant at any hole. -/
theorem upInv_of_heapFrom {K : Nat} {comp : T → T → Bool} {nodes : List T}
    (Hnt : compNegTrans comp) (hf : heapFrom K comp nodes 0) (i : Nat) :
    UpInv K comp nodes i where
  heap := fun c hc hc0 _ => hf c hc hc0 (Nat.zero_le _)
  hchild := fun hi c hc hc0 hp => by
    have h1 := hf c hc hc0 (Nat.zero_le _)
    rw [hp] at h1
    have hil : i < nodes.length :=
      lt_trans (by rw [← hp]; exact khParent_lt hc0) hc
    have h2 := hf i hil hi (Nat.zero_le _)
    exact Hnt _ _ _ h2 h1

theorem nth_append_lt {nodes : List T} {x : T} {y : Nat}
    (hy : y < nodes.length) : nth (nodes ++ [x]) y = nth nodes y := by
  simp [nth, List.getD_eq_getElem?_getD, List.getElem?_append_left hy]

/-- After appending a fresh last element, the sift-up invariant holds at the
appended slot. -/
theorem upInv_push {K : Nat} {comp : T → T → Bool} {nodes : List T} {x : T}
    (hf : heapFrom K comp nodes 0) :
    UpInv K comp (nodes ++ [x]) nodes.length where
  heap := fun c hc hc0 hne => by
    have hcl : c < nodes.length := by
      simp only [List.length_append, List.length_singleton] at hc
      omega
    have hpl : khParent K c < nodes.length := lt_trans (khParent_lt hc0) hcl
    rw [nth_append_lt hcl, nth_append_lt hpl]
    exact hf c hcl hc0 (Nat.zero_le _)
  hchild := fun _ c hc hc0 hp => by
    exfalso
    have := khParent_lt (K := K) hc0
    simp only [List.length_append, List.length_singleton] at hc
    omega

/-- One swap step of `heapify_up`: the hole moves to its parent. -/
theorem upInv_step {K : Nat} {comp : T → T → Bool} {nodes : List T} {i : Nat}
    (Hasym : compAsymm comp) (Hnt : compNegTrans comp)
    (inv : UpInv K comp nodes i) (hi : i < nodes.length) (hi0 : 0 < i)
    (hcmp : comp (nth nodes (khParent K i)) (nth nodes i) = true) :
    UpInv K comp (swapL nodes i (khParent K i)) (khParent K i) := by
  have hp : khParent K i < i := khParent_lt hi0
  have hpl : khParent K i < nodes.length := lt_trans hp hi
  have hnl : nth (swapL nodes i (khParent K i)) i = nth nodes (khParent K i) :=
    nth_swapL_left nodes hi
  have hnr : nth (swapL nodes i (khParent K i)) (khParent K i) = nth nodes i :=
    nth_swapL_right nodes hpl
  refine ⟨?_, ?_⟩
  · intro x hx hx0 hne
    rw [swapL_length] at hx
    by_cases hxi : x = i
    · subst hxi
      rw [hnl]
      have hpx : khParent K x = khParent K x := rfl
      rw [hnr]
      exact Hasym _ _ hcmp
    · rw [nth_swapL_other nodes hxi hne]
      by_cases hpxi : khParent K x = i
      · rw [hpxi, hnl]
        exact inv.hchild hi0 x hx hx0 hpxi
      · by_cases hpxp : khParent K x = khParent K i
        · rw [hpxp, hnr]
          have h1 := inv.heap x hx hx0 hxi
          rw [hpxp] at h1
          exact Hnt _ _ _ (Hasym _ _ hcmp) h1
        · rw [nth_swapL_other nodes hpxi hpxp]
          exact inv.heap x hx hx0 hxi
  · intro hp0 x hx hx0 hpx
    rw [swapL_length] at hx
    have hpp : khParent K (khParent K i) < khParent K i := khParent_lt hp0
    have hppne_i : khParent K (khParent K i) ≠ i := by omega
    have hppne_p : khParent K (khParent K i) ≠ khParent K i := by omega
    rw [nth_swapL_other nodes hppne_i hppne_p]
    have hedge_p : comp (nth nodes (khParent K (khParent K i)))
        (nth nodes (khParent K i)) = false :=
      inv.heap (khParent K i) hpl hp0 (by omega)
    by_cases hxi : x = i
    · subst hxi
      rw [hnl]
      exact hedge_p
    · have hxp : x ≠ khParent K i := by
        have := khParent_lt (K := K) hx0
        omega
      rw [nth_swapL_other nodes hxi hxp]
      have h1 := inv.heap x hx hx0 hxi
      rw [hpx] at h1
      exact Hnt _ _ _ hedge_p h1

theorem khHeapifyUp_heapFrom {K : Nat} {comp : T → T → Bool}
    (Hasym : compAsymm comp) (Hnt : compNegTrans comp) :
    ∀ (nodes : List T) (i : Nat), i < nodes.length → UpInv K comp nodes i →
      heapFrom K comp (khHeapifyUp K comp nodes i) 0 := by
  intro nodes i
  induction nodes, i using khHeapifyUp.induct K comp with
  | case1 nodes i h ih =>
    intro hi inv
    rw [khHeapifyUp, dif_pos h]
    obtain ⟨hi0, hcmp⟩ := h
    exact ih (by simpa using lt_trans (khParent_lt hi0) hi)
      (upInv_step Hasym Hnt inv hi hi0 hcmp)
  | case2 nodes i h =>
    intro hi inv
    rw [khHeapifyUp, dif_neg h]
    intro c hc hc0 _
    by_cases hci : c = i
    · subst hci
      have h1 : ¬ comp (nth nodes (khParent K c)) (nth nodes c) = true :=
        fun hcomp => h ⟨hc0, hcomp⟩
      simpa using h1
    · exact inv.heap c hc hc0 hci

/-- `BinaryHeap`'s `heapify_up` is the K-ary one at `K = 2`
(`(i - 1) >> 1 = (i - 1) / 2`). -/
theorem bhHeapifyUp_eq (comp : T → T → Bool) :
    ∀ (nodes : List T) (i : Nat),
      bhHeapifyUp comp nodes i = khHeapifyUp 2 comp nodes i := by
  intro nodes i
  induction nodes, i using bhHeapifyUp.induct comp with
  | case1 nodes i h ih =>
    have hp : bhParent i = khParent 2 i := by rw [bhParent_eq]; rfl
    rw [bhHeapifyUp, dif_pos h, khHeapifyUp, dif_pos (by rwa [← hp])]
    rw [← hp]
    exact ih
  | case2 nodes i h =>
    have hp : bhParent i = khParent 2 i := by rw [bhParent_eq]; rfl
    rw [bhHeapifyUp, dif_neg h, khHeapifyUp, dif_neg (by rwa [← hp])]

/-! ### `build_heap` establishes the heap property -/

/-- Any array vacuously satisfies `heapFrom` above the build loop's start. -/
theorem heapFrom_top {K : Nat} (comp : T → T → Bool) (nodes : List T)
    (hK : 0 < K) : heapFrom K comp nodes (nodes.length / K + 1) := by
  intro c hc hc0 hge
  exfalso
  obtain ⟨h1, _⟩ := khChild_parent (K := K) hK hc0
  have hdm := Nat.div_add_mod nodes.length K
  have hmul : K * (nodes.length / K + 1) ≤ K * khParent K c :=
    Nat.mul_le_mul_left K hge
  have hmul2 : K * (nodes.length / K + 1) = K * (nodes.length / K) + K := by
    ring
  have hmod : nodes.length % K < K := Nat.mod_lt _ hK
  simp only [khChild] at h1
  omega

theorem khBuildLoop_heapFrom {K : Nat} {comp : T → T → Bool}
    (Hasym : compAsymm comp) (Hnt : compNegTrans comp) (hK : 0 < K) :
    ∀ (c : Nat) (nodes : List T), nodes.length < usizeMod →
      heapFrom K comp nodes c →
      heapFrom K comp (khBuildLoop K comp nodes c) 0 := by
  intro c
  induction c with
  | zero => intro nodes _ hf; exact hf
  | succ c ih =>
    intro nodes hn hf
    rw [khBuildLoop]
    apply ih
    · rw [khHeapifyDown_length]; exact hn
    · exact khHeapifyDown_heapFrom Hasym Hnt hK nodes c c hn (downInv_init hf)

theorem khBuildHeap_heapFrom {K : Nat} {comp : T → T → Bool}
    (Hasym : compAsymm comp) (Hnt : compNegTrans comp) (hK : 0 < K)
    (nodes : List T) (hn : nodes.length < usizeMod) :
    heapFrom K comp (khBuildHeap K comp nodes) 0 :=
  khBuildLoop_heapFrom Hasym Hnt hK _ nodes hn (heapFrom_top comp nodes hK)

theorem bhBuildLoop_heapFrom {comp : T → T → Bool}
    (Hasym : compAsymm comp) (Hnt : compNegTrans comp) :
    ∀ (c : Nat) (nodes : List T), heapFrom 2 comp nodes c →
      heapFrom 2 comp (bhBuildLoop comp nodes c) 0 := by
  intro c
  induction c with
  | zero => intro nodes hf; exact hf
  | succ c ih =>
    intro nodes hf
    rw [bhBuildLoop]
    exact ih _ (bhHeapifyDown_heapFrom Hasym Hnt nodes c c (downInv_init hf))

theorem bhBuildHeap_heapFrom {comp : T → T → Bool}
    (Hasym : compAsymm comp) (Hnt : compNegTrans comp) (nodes : List T) :
    heapFrom 2 comp (bhBuildHeap comp nodes) 0 := by
  unfold bhBuildHeap
  apply bhBuildLoop_heapFrom Hasym Hnt
  have hs : Nat.shiftRight nodes.length 1 = nodes.length / 2 := by
    have := Nat.shiftRight_eq_div_pow nodes.length 1
    simpa using this
  rw [hs]
  exact heapFrom_top comp nodes (by omega)

/-! ### `push` and `pop` preserve the heap property -/

theorem khPush_heapFrom {K : Nat} {comp : T → T → Bool}
    (Hasym : compAsymm comp) (Hnt : compNegTrans comp)
    {nodes : List T} (x : T) (hf : heapFrom K comp nodes 0) :
    heapFrom K comp (khPush K comp nodes x) 0 := by
  unfold khPush
  exact khHeapifyUp_heapFrom Hasym Hnt (nodes ++ [x]) nodes.length
    (by simp) (upInv_push hf)

theorem bhPush_heapFrom {comp : T → T → Bool}
    (Hasym : compAsymm comp) (Hnt : compNegTrans comp)
    {nodes : List T} (x : T) (hf : heapFrom 2 comp nodes 0) :
    heapFrom 2 comp (bhPush comp nodes x) 0 := by
  unfold bhPush
  rw [bhHeapifyUp_eq]
  exact khHeapifyUp_heapFrom Hasym Hnt (nodes ++ [x]) nodes.length
    (by simp) (upInv_push hf)

theorem nth_popSeq {nodes : List T} {y : Nat} (hy : 0 < y)
    (hyl : y < nodes.length - 1) : nth (popSeq nodes) y = nth nodes y := by
  unfold popSeq nth
  simp only [List.getD_eq_getElem?_getD]
  rw [List.getElem?_dropLast]
  simp only [List.length_set]
  rw [if_pos hyl, List.getElem?_set_ne (by omega : (0 : Nat) ≠ y)]

theorem heapFrom_popSeq {K : Nat} {comp : T → T → Bool} {nodes : List T}
    (hK : 0 < K) (hf : heapFrom K comp nodes 0) :
    heapFrom K comp (popSeq nodes) 1 := by
  intro c hc hc0 hge
  have hplt : khParent K c < c := khParent_lt hc0
  rw [popSeq_length] at hc
  rw [nth_popSeq (by omega) hc, nth_popSeq (by omega) (by omega)]
  exact hf c (by omega) hc0 (Nat.zero_le _)

theorem khPop_heapFrom {K : Nat} {comp : T → T → Bool}
    (Hasym : compAsymm comp) (Hnt : compNegTrans comp) (hK : 0 < K)
    {nodes out : List T} (hn : nodes.length < usizeMod)
    (hf : heapFrom K comp nodes 0)
    (hout : khPop K comp nodes = Except.ok out) :
    heapFrom K comp out 0 := by
  cases nodes with
  | nil => simp [khPop] at hout
  | cons x rest =>
    simp only [khPop, Except.ok.injEq] at hout
    subst hout
    apply khHeapifyDown_heapFrom Hasym Hnt hK _ 0 0
    · rw [popSeq_length]
      simp only [List.length_cons] at hn ⊢
      omega
    · exact downInv_init (heapFrom_popSeq hK hf)

theorem bhPop_heapFrom {comp : T → T → Bool}
    (Hasym : compAsymm comp) (Hnt : compNegTrans comp)
    {nodes out : List T} (hf : heapFrom 2 comp nodes 0)
    (hout : bhPop comp nodes = Except.ok out) :
    heapFrom 2 comp out 0 := by
  cases nodes with
  | nil => simp [bhPop] at hout
  | cons x rest =>
    simp only [bhPop, Except.ok.injEq] at hout
    subst hout
    exact bhHeapifyDown_heapFrom Hasym Hnt _ 0 0
      (downInv_init (heapFrom_popSeq (by omega) hf))

/-! ### The root dominates the whole heap; full extraction is sorted -/

theorem heapFrom_dominates {K : Nat} {comp : T → T → Bool} {nodes : List T}
    (Hasym : compAsymm comp) (Hnt : compNegTrans comp)
    (hf : heapFrom K comp nodes 0) :
    ∀ j, j < nodes.length → comp (nth nodes 0) (nth nodes j) = false := by
  intro j
  induction j using Nat.strong_induction_on with
  | _ j ih =>
    intro hj
    rcases Nat.eq_zero_or_pos j with rfl | hj0
    · exact comp_irrefl Hasym _
    · have h1 := hf j hj hj0 (Nat.zero_le _)
      have h2 := ih (khParent K j) (khParent_lt hj0)
        (lt_trans (khParent_lt hj0) hj)
      exact Hnt _ _ _ h2 h1

theorem popSeq_cons_perm [DecidableEq T] (x : T) (rest : List T) :
    (x :: popSeq (x :: rest)).Perm (x :: rest) := by
  cases rest with
  | nil => simp [popSeq, nth]
  | cons y ys =>
    have hne : (y :: ys) ≠ [] := by simp
    have hlast : nth (x :: y :: ys) ((x :: y :: ys).length - 1) =
        (y :: ys).getLast hne := by
      have hlt : (x :: y :: ys).length - 1 < (x :: y :: ys).length := by
        simp
      rw [nth_eq_getElem hlt, List.getLast_eq_getElem]
      have : (x :: y :: ys).getLast (by simp) = (y :: ys).getLast hne :=
        List.getLast_cons hne
      rw [List.getLast_eq_getElem, List.getLast_eq_getElem] at this
      simpa using this
    have hpop : popSeq (x :: y :: ys) =
        (y :: ys).getLast hne :: (y :: ys).dropLast := by
      rw [popSeq, hlast]
      rfl
    rw [hpop]
    refine List.Perm.cons x ?_
    have h3 : (y :: ys).dropLast ++ [(y :: ys).getLast hne] = y :: ys :=
      List.dropLast_append_getLast hne
    refine List.Perm.trans
      (List.perm_append_singleton ((y :: ys).getLast hne)
        ((y :: ys).dropLast)).symm ?_
    rw [h3]

theorem khPopAll_sorted [DecidableEq T] {K : Nat} {comp : T → T → Bool}
    (Hasym : compAsymm comp) (Hnt : compNegTrans comp) (hK : 0 < K) :
    ∀ (nodes : List T), nodes.length < usizeMod → heapFrom K comp nodes 0 →
      (khPopAll K comp nodes).Perm nodes ∧
      List.Pairwise (fun a b => comp a b = false) (khPopAll K comp nodes) := by
  intro nodes
  induction nodes using khPopAll.induct K comp with
  | case1 => intro _ _; simp [khPopAll]
  | case2 x rest ih =>
    intro hn hf
    have hnext_len : (khHeapifyDown K comp (popSeq (x :: rest)) 0).length =
        rest.length := by
      rw [khHeapifyDown_length]
      simp
    have hfnext : heapFrom K comp
        (khHeapifyDown K comp (popSeq (x :: rest)) 0) 0 := by
      apply khHeapifyDown_heapFrom Hasym Hnt hK _ 0 0
      · rw [popSeq_length]
        simp only [List.length_cons] at hn ⊢
        omega
      · exact downInv_init (heapFrom_popSeq hK hf)
    obtain ⟨hperm, hsorted⟩ := ih (by
        rw [hnext_len]
        simp only [List.length_cons] at hn
        omega) hfnext
    have hstep : khPopAll K comp (x :: rest) =
        x :: khPopAll K comp (khHeapifyDown K comp (popSeq (x :: rest)) 0) := by
      rw [khPopAll]
    have hpermall : (khPopAll K comp (x :: rest)).Perm (x :: rest) := by
      rw [hstep]
      exact List.Perm.trans (List.Perm.cons x hperm)
        (List.Perm.trans
          (List.Perm.cons x (khHeapifyDown_perm K comp _ 0))
          (popSeq_cons_perm x rest))
    refine ⟨hpermall, ?_⟩
    rw [hstep, List.pairwise_cons]
    refine ⟨?_, hsorted⟩
    intro y hy
    have hy2 : y ∈ (x :: rest) := by
      apply hpermall.subset
      rw [hstep]
      exact List.mem_cons_of_mem _ hy
    obtain ⟨k, hk, hkeq⟩ := List.mem_iff_getElem.mp hy2
    have hdom := heapFrom_dominates Hasym Hnt hf k hk
    rw [show nth (x :: rest) 0 = x from rfl, nth_eq_getElem hk, hkeq] at hdom
    exact hdom

theorem bhPopAll_sorted [DecidableEq T] {comp : T → T → Bool}
    (Hasym : compAsymm comp) (Hnt : compNegTrans comp) :
    ∀ (nodes : List T), heapFrom 2 comp nodes 0 →
      (bhPopAll comp nodes).Perm nodes ∧
      List.Pairwise (fun a b => comp a b = false) (bhPopAll comp nodes) := by
  intro nodes
  induction nodes using bhPopAll.induct comp with
  | case1 => intro _; simp [bhPopAll]
  | case2 x rest ih =>
    intro hf
    have hfnext : heapFrom 2 comp
        (bhHeapifyDown comp (popSeq (x :: rest)) 0) 0 :=
      bhHeapifyDown_heapFrom Hasym Hnt _ 0 0
        (downInv_init (heapFrom_popSeq (by omega) hf))
    obtain ⟨hperm, hsorted⟩ := ih hfnext
    have hstep : bhPopAll comp (x :: rest) =
        x :: bhPopAll comp (bhHeapifyDown comp (popSeq (x :: rest)) 0) := by
      rw [bhPopAll]
    have hpermall : (bhPopAll comp (x :: rest)).Perm (x :: rest) := by
      rw [hstep]
      exact List.Perm.trans (List.Perm.cons x hperm)
        (List.Perm.trans
          (List.Perm.cons x (bhHeapifyDown_perm comp _ 0))
          (popSeq_cons_perm x rest))
    refine ⟨hpermall, ?_⟩
    rw [hstep, List.pairwise_cons]
    refine ⟨?_, hsorted⟩
    intro y hy
    have hy2 : y ∈ (x :: rest) := by
      apply hpermall.subset
      rw [hstep]
      exact List.mem_cons_of_mem _ hy
    obtain ⟨k, hk, hkeq⟩ := List.mem_iff_getElem.mp hy2
    have hdom := heapFrom_dominates Hasym Hnt hf k hk
    rw [show nth (x :: rest) 0 = x from rfl, nth_eq_getElem hk, hkeq] at hdom
    exact hdom

/-! ### The binary strategy coincides with the k-ary strategy at K = 2

The two `is_leaf` tests draw the boundary one slot apart, but on the
differing slot neither side has an in-bounds child, so every observable
result agrees. -/

theorem khFold_no_child {K : Nat} {comp : T → T → Bool} {nodes : List T}
    {i : Nat} (h : ∀ j, nodes.length ≤ khChild K i j) :
    ∀ (js : List Nat) (est : Nat),
      js.foldl (khStep K comp nodes i) est = est := by
  intro js
  induction js with
  | nil => intro est; rfl
  | cons j js ih =>
    intro est
    simp only [List.foldl_cons]
    have hstep : khStep K comp nodes i est j = est := by
      unfold khStep
      rw [if_neg]
      simp only [Bool.and_eq_true, decide_eq_true_eq, not_and]
      intro hlt
      exact absurd hlt (by have := h j; omega)
    rw [hstep]
    exact ih est

theorem khSelect_no_child {K : Nat} {comp : T → T → Bool} {nodes : List T}
    {i : Nat} (h : ∀ j, nodes.length ≤ khChild K i j) :
    khSelect K comp nodes i = i :=
  khFold_no_child h (List.range K) i

theorem bhSelect_eq_khSelect (comp : T → T → Bool) (nodes : List T) (i : Nat) :
    bhSelect comp nodes i = khSelect 2 comp nodes i := by
  have hr : List.range 2 = [0, 1] := rfl
  unfold khSelect
  rw [hr]
  simp only [List.foldl_cons, List.foldl_nil]
  unfold khStep bhSelect bhC1
  rw [khChild_two_zero, khChild_two_one]

theorem bhHeapifyDown_eq_khHeapifyDown (comp : T → T → Bool) :
    ∀ (nodes : List T) (i : Nat), nodes.length < usizeMod →
      bhHeapifyDown comp nodes i = khHeapifyDown 2 comp nodes i := by
  intro nodes i
  induction nodes, i using bhHeapifyDown.induct comp with
  | case1 nodes i hleaf =>
    intro hn
    rw [bhHeapifyDown, if_pos hleaf]
    have hnc : ∀ j, nodes.length ≤ khChild 2 i j := by
      intro j
      have := bhIsLeaf_no_child hleaf
      simp only [khChild]
      omega
    by_cases hkl : khIsLeaf 2 nodes.length i = true
    · rw [khHeapifyDown, if_pos hkl]
    · rw [khHeapifyDown, if_neg hkl, dif_pos (khSelect_no_child hnc)]
  | case2 nodes i hleaf hsel =>
    intro hn
    rw [bhHeapifyDown, if_neg hleaf, dif_pos hsel]
    by_cases hkl : khIsLeaf 2 nodes.length i = true
    · rw [khHeapifyDown, if_pos hkl]
    · rw [khHeapifyDown, if_neg hkl,
        dif_pos (by rw [← bhSelect_eq_khSelect]; exact hsel)]
  | case3 nodes i hleaf hsel ih =>
    intro hn
    rw [bhHeapifyDown, if_neg hleaf, dif_neg hsel]
    have hkl : ¬ khIsLeaf 2 nodes.length i = true := by
      intro hkl'
      have hnc := khIsLeaf_no_child (by omega) hn hkl'
      exact hsel (by rw [bhSelect_eq_khSelect]; exact khSelect_no_child hnc)
    rw [khHeapifyDown, if_neg hkl,
      dif_neg (by rw [← bhSelect_eq_khSelect]; exact hsel)]
    rw [← bhSelect_eq_khSelect]
    exact ih (by simpa using hn)

theorem bhBuildLoop_eq (comp : T → T → Bool) :
    ∀ (c : Nat) (nodes : List T), nodes.length < usizeMod →
      bhBuildLoop comp nodes c = khBuildLoop 2 comp nodes c := by
  intro c
  induction c with
  | zero => intro nodes _; rfl
  | succ c ih =>
    intro nodes hn
    rw [bhBuildLoop, khBuildLoop, bhHeapifyDown_eq_khHeapifyDown comp nodes c hn,
      ih _ (by rw [khHeapifyDown_length]; exact hn)]

theorem bhBuildHeap_eq (comp : T → T → Bool) (nodes : List T)
    (hn : nodes.length < usizeMod) :
    bhBuildHeap comp nodes = khBuildHeap 2 comp nodes := by
  unfold bhBuildHeap khBuildHeap
  have hs : Nat.shiftRight nodes.length 1 = nodes.length / 2 := by
    have := Nat.shiftRight_eq_div_pow nodes.length 1
    simpa using this
  rw [hs]
  exact bhBuildLoop_eq comp _ nodes hn

theorem bhPop_eq (comp : T → T → Bool) (nodes : List T)
    (hn : nodes.length < usizeMod) :
    bhPop comp nodes = khPop 2 comp nodes := by
  cases nodes with
  | nil => rfl
  | cons x rest =>
    simp only [bhPop, khPop, Except.ok.injEq]
    apply bhHeapifyDown_eq_khHeapifyDown
    rw [popSeq_length]
    simp only [List.length_cons] at hn ⊢
    omega

theorem bhPopAll_eq (comp : T → T → Bool) :
    ∀ (nodes : List T), nodes.length < usizeMod →
      bhPopAll comp nodes = khPopAll 2 comp nodes := by
  intro nodes
  induction nodes using bhPopAll.induct comp with
  | case1 => intro _; simp [bhPopAll, khPopAll]
  | case2 x rest ih =>
    intro hn
    have hps : (popSeq (x :: rest)).length < usizeMod := by
      rw [popSeq_length]
      simp only [List.length_cons] at hn ⊢
      omega
    have hlen : (bhHeapifyDown comp (popSeq (x :: rest)) 0).length < usizeMod := by
      rw [bhHeapifyDown_length]
      exact hps
    rw [bhPopAll, khPopAll, ih hlen,
      bhHeapifyDown_eq_khHeapifyDown comp _ 0 hps]

/-! ### The indexed priority queue (`priority_queue.h`)

State: the inherited heap sequence plus `key_map_` and `index_map_`
(`std::unordered_map`, modelled as functions into `Option`).  The heap is
ordered by the *value* comparator of the backing `Heap<HeapT, ValueT>`.
`A` is the arity of the backing strategy (`(i-1)/A` parent, `A*i+j+1`
children); `A = 2` is the binary backend. -/

/-- `detail::heap_type` (`heap.h` line 11). -/
inductive HeapType : Type where
  | minHeap : HeapType
  | maxHeap : HeapType
deriving DecidableEq

structure PQ (KeyT V : Type) where
  nodes : List V
  kmap : V → Option KeyT
  imap : V → Option Nat

variable {KeyT V : Type} [Inhabited V] [DecidableEq V]

/-- `PriorityQueue::swap_nodes` (lines 86-93): read both values, swap their
index-map entries (`operator[]` value-initializes an absent entry to 0),
then delegate to the base slot swap. -/
def pqSwapNodes (s : PQ KeyT V) (i j : Nat) : PQ KeyT V :=
  { nodes := swapL s.nodes i j
    kmap := s.kmap
    imap := fun v =>
      if v = nth s.nodes i then some ((s.imap (nth s.nodes j)).getD 0)
      else if v = nth s.nodes j then some ((s.imap (nth s.nodes i)).getD 0)
      else s.imap v }

@[simp] theorem pqSwapNodes_nodes (s : PQ KeyT V) (i j : Nat) :
    (pqSwapNodes s i j).nodes = swapL s.nodes i j := rfl

@[simp] theorem pqSwapNodes_kmap (s : PQ KeyT V) (i j : Nat) :
    (pqSwapNodes s i j).kmap = s.kmap := rfl

/-- `Heap::heapify_up` as inherited by the queue: identical loop, but the
overridden `swap_nodes` keeps `index_map_` in sync. -/
def pqHeapifyUp (A : Nat) (comp : V → V → Bool) (s : PQ KeyT V) (i : Nat) :
    PQ KeyT V :=
  if h : 0 < i ∧ comp (nth s.nodes (khParent A i)) (nth s.nodes i) = true then
    pqHeapifyUp A comp (pqSwapNodes s i (khParent A i)) (khParent A i)
  else s
termination_by i
decreasing_by
  simp only [khParent]
  have := Nat.div_le_self (i - 1) A
  omega

/-- The backing strategy's `heapify_down`, with the queue's swap override. -/
def pqHeapifyDown (A : Nat) (comp : V → V → Bool) (s : PQ KeyT V) (i : Nat) :
    PQ KeyT V :=
  if khIsLeaf A s.nodes.length i then s
  else if h : khSelect A comp s.nodes i = i then s
  else pqHeapifyDown A comp (pqSwapNodes s i (khSelect A comp s.nodes i))
    (khSelect A comp s.nodes i)
termination_by s.nodes.length - i
decreasing_by
  have hb := khSelect_bounds h
  simp only [pqSwapNodes_nodes, swapL_length]
  omega

def pqBuildLoop (A : Nat) (comp : V → V → Bool) (s : PQ KeyT V) :
    Nat → PQ KeyT V
  | 0 => s
  | c + 1 => pqBuildLoop A comp (pqHeapifyDown A comp s c) c

def pqBuildHeap (A : Nat) (comp : V → V → Bool) (s : PQ KeyT V) : PQ KeyT V :=
  pqBuildLoop A comp s (s.nodes.length / A + 1)

/-- `build_key_map` (lines 58-69): iterate `zip(keys, nodes)` assigning
`key_map[node] = key`; the zip stops at the shorter sequence. -/
def buildKeyMapFrom : List KeyT → List V → (V → Option KeyT) →
    (V → Option KeyT)
  | k :: ks, v :: vs, m =>
    buildKeyMapFrom ks vs (fun w => if w = v then some k else m w)
  | _, _, m => m

def buildKeyMap (keys : List KeyT) (values : List V) : V → Option KeyT :=
  buildKeyMapFrom keys values (fun _ => none)

/-- `build_index_map` (lines 72-83): iterate `zip(nodes, range(n))` assigning
`index_map[node] = index`. -/
def buildIndexMapFrom : List V → Nat → (V → Option Nat) → (V → Option Nat)
  | [], _, m => m
  | v :: vs, idx, m =>
    buildIndexMapFrom vs (idx + 1) (fun w => if w = v then some idx else m w)

def buildIndexMap (values : List V) : V → Option Nat :=
  buildIndexMapFrom values 0 (fun _ => none)

/-- The rvalue constructor (line 103): store the sequence, build both maps,
then `heapify()` (which builds unless `IsHeap = true`, dispatching through
the overridden swap). -/
def pqMake (A : Nat) (isHeap : Bool) (comp : V → V → Bool)
    (keys : List KeyT) (values : List V) : PQ KeyT V :=
  if isHeap then
    { nodes := values, kmap := buildKeyMap keys values,
      imap := buildIndexMap values }
  else
    pqBuildHeap A comp
      { nodes := values, kmap := buildKeyMap keys values,
        imap := buildIndexMap values }

/-- `PriorityQueue::push` (lines 136-142): record index and key, then the
inherited append + sift-up. -/
def pqPush (A : Nat) (comp : V → V → Bool) (s : PQ KeyT V) (k : KeyT)
    (v : V) : PQ KeyT V :=
  pqHeapifyUp A comp
    { nodes := s.nodes ++ [v]
      kmap := fun w => if w = v then some k else s.kmap w
      imap := fun w => if w = v then some s.nodes.length else s.imap w }
    s.nodes.length

/-- `PriorityQueue::pop` (lines 151-173): erase the root's map entries, move
the last element to the root, truncate, then (if non-empty) point the moved
value at slot 0 and sift down. -/
def pqPop (A : Nat) (comp : V → V → Bool) (s : PQ KeyT V) :
    Option (PQ KeyT V) :=
  if s.nodes.length = 0 then none
  else if 0 < s.nodes.length - 1 then
    some (pqHeapifyDown A comp
      { nodes := popSeq s.nodes
        kmap := fun w => if w = nth s.nodes 0 then none else s.kmap w
        imap := fun w =>
          if w = nth (popSeq s.nodes) 0 then some 0
          else if w = nth s.nodes 0 then none else s.imap w } 0)
  else
    some { nodes := popSeq s.nodes
           kmap := fun w => if w = nth s.nodes 0 then none else s.kmap w
           imap := fun w => if w = nth s.nodes 0 then none else s.imap w }

/-- `PriorityQueue::update_key` (lines 183-200): `index_map_[element]` via
`operator[]` (value-initializing an absent entry to 0), overwrite the key,
then sift purely by heap kind: min-heap up, max-heap down. -/
def pqUpdateKey (ht : HeapType) (A : Nat) (comp : V → V → Bool)
    (s : PQ KeyT V) (k : KeyT) (v : V) : PQ KeyT V :=
  match ht with
  | HeapType.minHeap =>
    pqHeapifyUp A comp
      { nodes := s.nodes
        kmap := fun w => if w = v then some k else s.kmap w
        imap := fun w => if w = v then some ((s.imap v).getD 0) else s.imap w }
      ((s.imap v).getD 0)
  | HeapType.maxHeap =>
    pqHeapifyDown A comp
      { nodes := s.nodes
        kmap := fun w => if w = v then some k else s.kmap w
        imap := fun w => if w = v then some ((s.imap v).getD 0) else s.imap w }
      ((s.imap v).getD 0)

/-- `PriorityQueue::key_at` (lines 209-211): `key_map_.at(element)`, which
fails for an absent element. -/
def pqKeyAt (s : PQ KeyT V) (v : V) : Option KeyT := s.kmap v

/-- `PriorityQueue::contains` (lines 219-221). -/
def pqContains (s : PQ KeyT V) (v : V) : Bool := (s.imap v).isSome

/-- `PriorityQueue::top` (lines 229-231): the root value, which must exist. -/
def pqTop (s : PQ KeyT V) : Option V := s.nodes.head?

inductive PQOp (KeyT V : Type) : Type where
  | push (k : KeyT) (v : V) : PQOp KeyT V
  | pop : PQOp KeyT V
  | update (k : KeyT) (v : V) : PQOp KeyT V

def pqApply (ht : HeapType) (A : Nat) (comp : V → V → Bool)
    (s : PQ KeyT V) : PQOp KeyT V → PQ KeyT V
  | PQOp.push k v => pqPush A comp s k v
  | PQOp.pop => (pqPop A comp s).getD s
  | PQOp.update k v => pqUpdateKey ht A comp s k v

def pqRun (ht : HeapType) (A : Nat) (comp : V → V → Bool)
    (s : PQ KeyT V) : List (PQOp KeyT V) → PQ KeyT V
  | [] => s
  | op :: ops => pqRun ht A comp (pqApply ht A comp s op) ops

/-- A legal op sequence: pushes are of fresh values (the spec expects held
values to stay unique), pops need a non-empty queue, updates need a present
value. -/
def pqLegal (ht : HeapType) (A : Nat) (comp : V → V → Bool)
    (s : PQ KeyT V) : List (PQOp KeyT V) → Bool
  | [] => true
  | op :: ops =>
    (match op with
     | PQOp.push _ v => decide (v ∉ s.nodes)
     | PQOp.pop => decide (s.nodes ≠ [])
     | PQOp.update _ v => decide (v ∈ s.nodes)) &&
    pqLegal ht A comp (pqApply ht A comp s op) ops

/-- The key most recently assigned to each value by the run
(push and update assign; pop assigns nothing). -/
def expKey (e : V → Option KeyT) : List (PQOp KeyT V) → (V → Option KeyT)
  | [] => e
  | PQOp.push k v :: ops => expKey (fun w => if w = v then some k else e w) ops
  | PQOp.update k v :: ops =>
    expKey (fun w => if w = v then some k else e w) ops
  | PQOp.pop :: ops => expKey e ops

/-- Exact-inverse consistency of `index_map_` with the sequence. -/
def MapsConsistent (s : PQ KeyT V) : Prop :=
  (∀ i, i < s.nodes.length → s.imap (nth s.nodes i) = some i) ∧
  (∀ v i, s.imap v = some i → i < s.nodes.length ∧ nth s.nodes i = v)

def PQInv (s : PQ KeyT V) : Prop :=
  s.nodes.Nodup ∧ MapsConsistent s

/-! ### Map consistency is maintained through every swap -/

theorem nth_append_last (l : List V) (x : V) : nth (l ++ [x]) l.length = x := by
  simp [nth, List.getD_eq_getElem?_getD, List.getElem?_concat_length]

theorem nodup_nth_ne {l : List V} (h : l.Nodup) {p q : Nat}
    (hp : p < l.length) (hq : q < l.length) (hne : p ≠ q) :
    nth l p ≠ nth l q := by
  rw [nth_eq_getElem hp, nth_eq_getElem hq]
  intro he
  exact hne (h.getElem_inj_iff.mp he)

theorem pqSwapNodes_inv {s : PQ KeyT V} {i j : Nat} (hinv : PQInv s)
    (hi : i < s.nodes.length) (hj : j < s.nodes.length) :
    PQInv (pqSwapNodes s i j) := by
  obtain ⟨hnd, hfwd, hbwd⟩ := hinv
  have himap_i : s.imap (nth s.nodes i) = some i := hfwd i hi
  have himap_j : s.imap (nth s.nodes j) = some j := hfwd j hj
  refine ⟨(swapL_perm s.nodes hi hj).symm.nodup hnd, ?_, ?_⟩
  · intro p hp
    simp only [pqSwapNodes_nodes, swapL_length] at hp
    show (pqSwapNodes s i j).imap (nth (swapL s.nodes i j) p) = some p
    by_cases hpi : p = i
    · rw [hpi, nth_swapL_left s.nodes hi]
      by_cases hji : nth s.nodes j = nth s.nodes i
      · have hje : j = i := by
          by_contra hne
          exact nodup_nth_ne hnd hj hi hne hji
        simp [pqSwapNodes, hji, himap_j, hje, himap_i]
      · simp [pqSwapNodes, hji, himap_i]
    · by_cases hpj : p = j
      · rw [hpj, nth_swapL_right s.nodes hj]
        simp [pqSwapNodes, himap_j]
      · rw [nth_swapL_other s.nodes hpi hpj]
        show (if nth s.nodes p = nth s.nodes i
            then some ((s.imap (nth s.nodes j)).getD 0)
            else if nth s.nodes p = nth s.nodes j
            then some ((s.imap (nth s.nodes i)).getD 0)
            else s.imap (nth s.nodes p)) = some p
        rw [if_neg (nodup_nth_ne hnd hp hi hpi),
          if_neg (nodup_nth_ne hnd hp hj hpj)]
        exact hfwd p hp
  · intro v q hq
    have hq2 : (if v = nth s.nodes i
        then some ((s.imap (nth s.nodes j)).getD 0)
        else if v = nth s.nodes j
        then some ((s.imap (nth s.nodes i)).getD 0)
        else s.imap v) = some q := hq
    clear hq
    rename' hq2 => hq
    simp only [pqSwapNodes_nodes, swapL_length]
    by_cases hvi : v = nth s.nodes i
    · rw [if_pos hvi, himap_j] at hq
      have hqj : q = j := by
        simpa using hq.symm
      subst hqj
      exact ⟨hj, by rw [nth_swapL_right s.nodes hj, hvi]⟩
    · by_cases hvj : v = nth s.nodes j
      · rw [if_neg hvi, if_pos hvj, himap_i] at hq
        have hqi : q = i := by
          simpa using hq.symm
        subst hqi
        exact ⟨hi, by rw [nth_swapL_left s.nodes hi, hvj]⟩
      · rw [if_neg hvi, if_neg hvj] at hq
        obtain ⟨hql, hqe⟩ := hbwd v q hq
        have hqi : q ≠ i := fun h => hvi (by rw [← hqe, h])
        have hqj : q ≠ j := fun h => hvj (by rw [← hqe, h])
        exact ⟨hql, by rw [nth_swapL_other s.nodes hqi hqj]; exact hqe⟩

theorem pqHeapifyUp_inv {A : Nat} {comp : V → V → Bool} :
    ∀ (s : PQ KeyT V) (i : Nat), PQInv s → i < s.nodes.length →
      PQInv (pqHeapifyUp A comp s i) := by
  intro s i
  induction s, i using pqHeapifyUp.induct A comp with
  | case1 s i h ih =>
    intro hinv hi
    rw [pqHeapifyUp, dif_pos h]
    have hp : khParent A i < i := khParent_lt h.1
    exact ih (pqSwapNodes_inv hinv hi (lt_trans hp hi))
      (by simpa using lt_trans hp hi)
  | case2 s i h =>
    intro hinv _
    rw [pqHeapifyUp, dif_neg h]
    exact hinv

theorem pqHeapifyDown_inv {A : Nat} {comp : V → V → Bool} :
    ∀ (s : PQ KeyT V) (i : Nat), PQInv s →
      PQInv (pqHeapifyDown A comp s i) := by
  intro s i
  induction s, i using pqHeapifyDown.induct A comp with
  | case1 s i hleaf =>
    intro hinv
    rw [pqHeapifyDown, if_pos hleaf]
    exact hinv
  | case2 s i hleaf hsel =>
    intro hinv
    rw [pqHeapifyDown, if_neg hleaf, dif_pos hsel]
    exact hinv
  | case3 s i hleaf hsel ih =>
    intro hinv
    rw [pqHeapifyDown, if_neg hleaf, dif_neg hsel]
    have hb := khSelect_bounds hsel
    exact ih (pqSwapNodes_inv hinv (by omega) hb.2)

theorem pqHeapifyUp_kmap {A : Nat} {comp : V → V → Bool} :
    ∀ (s : PQ KeyT V) (i : Nat), (pqHeapifyUp A comp s i).kmap = s.kmap := by
  intro s i
  induction s, i using pqHeapifyUp.induct A comp with
  | case1 s i h ih => rw [pqHeapifyUp, dif_pos h]; rw [ih]; rfl
  | case2 s i h => rw [pqHeapifyUp, dif_neg h]

theorem pqHeapifyDown_kmap {A : Nat} {comp : V → V → Bool} :
    ∀ (s : PQ KeyT V) (i : Nat), (pqHeapifyDown A comp s i).kmap = s.kmap := by
  intro s i
  induction s, i using pqHeapifyDown.induct A comp with
  | case1 s i hleaf => rw [pqHeapifyDown, if_pos hleaf]
  | case2 s i hleaf hsel => rw [pqHeapifyDown, if_neg hleaf, dif_pos hsel]
  | case3 s i hleaf hsel ih =>
    rw [pqHeapifyDown, if_neg hleaf, dif_neg hsel, ih]
    rfl

theorem pqHeapifyUp_nodes {A : Nat} {comp : V → V → Bool} :
    ∀ (s : PQ KeyT V) (i : Nat),
      (pqHeapifyUp A comp s i).nodes = khHeapifyUp A comp s.nodes i := by
  intro s i
  induction s, i using pqHeapifyUp.induct A comp with
  | case1 s i h ih =>
    rw [pqHeapifyUp, dif_pos h, khHeapifyUp, dif_pos h, ih]
    rfl
  | case2 s i h => rw [pqHeapifyUp, dif_neg h, khHeapifyUp, dif_neg h]

theorem pqHeapifyDown_nodes {A : Nat} {comp : V → V → Bool} :
    ∀ (s : PQ KeyT V) (i : Nat),
      (pqHeapifyDown A comp s i).nodes = khHeapifyDown A comp s.nodes i := by
  intro s i
  induction s, i using pqHeapifyDown.induct A comp with
  | case1 s i hleaf =>
    rw [pqHeapifyDown, if_pos hleaf, khHeapifyDown, if_pos hleaf]
  | case2 s i hleaf hsel =>
    rw [pqHeapifyDown, if_neg hleaf, dif_pos hsel, khHeapifyDown,
      if_neg hleaf, dif_pos hsel]
  | case3 s i hleaf hsel ih =>
    rw [pqHeapifyDown, if_neg hleaf, dif_neg hsel, khHeapifyDown,
      if_neg hleaf, dif_neg hsel, ih]
    rfl

theorem pqBuildLoop_inv {A : Nat} {comp : V → V → Bool} :
    ∀ (c : Nat) (s : PQ KeyT V), PQInv s → PQInv (pqBuildLoop A comp s c) := by
  intro c
  induction c with
  | zero => intro s hinv; exact hinv
  | succ c ih =>
    intro s hinv
    rw [pqBuildLoop]
    exact ih _ (pqHeapifyDown_inv _ _ hinv)

theorem pqBuildLoop_kmap {A : Nat} {comp : V → V → Bool} :
    ∀ (c : Nat) (s : PQ KeyT V), (pqBuildLoop A comp s c).kmap = s.kmap := by
  intro c
  induction c with
  | zero => intro s; rfl
  | succ c ih =>
    intro s
    rw [pqBuildLoop, ih, pqHeapifyDown_kmap]

theorem pqBuildLoop_nodes {A : Nat} {comp : V → V → Bool} :
    ∀ (c : Nat) (s : PQ KeyT V),
      (pqBuildLoop A comp s c).nodes = khBuildLoop A comp s.nodes c := by
  intro c
  induction c with
  | zero => intro s; rfl
  | succ c ih =>
    intro s
    rw [pqBuildLoop, khBuildLoop, ih, pqHeapifyDown_nodes]

/-! ### The constructed maps are consistent -/

theorem buildIndexMapFrom_not_mem {w : V} :
    ∀ (vs : List V) (start : Nat) (m : V → Option Nat), w ∉ vs →
      buildIndexMapFrom vs start m w = m w := by
  intro vs
  induction vs with
  | nil => intro start m _; rfl
  | cons v vs ih =>
    intro start m hw
    rw [buildIndexMapFrom,
      ih _ _ (fun h => hw (List.mem_cons_of_mem _ h))]
    show (if w = v then some start else m w) = m w
    rw [if_neg (fun h => hw (by rw [h]; exact List.mem_cons_self _ _))]

theorem buildIndexMapFrom_get :
    ∀ (vs : List V) (start : Nat) (m : V → Option Nat), vs.Nodup →
      ∀ p (hp : p < vs.length),
        buildIndexMapFrom vs start m (vs.get ⟨p, hp⟩) = some (start + p) := by
  intro vs
  induction vs with
  | nil => intro start m _ p hp; exact absurd hp (by simp)
  | cons v vs ih =>
    intro start m hnd p hp
    rw [buildIndexMapFrom]
    cases p with
    | zero =>
      have hv : v ∉ vs := (List.nodup_cons.mp hnd).1
      rw [show (v :: vs).get ⟨0, hp⟩ = v from rfl,
        buildIndexMapFrom_not_mem vs _ _ hv]
      show (if v = v then some start else m v) = some (start + 0)
      rw [if_pos rfl]
      simp
    | succ p' =>
      have hp' : p' < vs.length := by simpa using hp
      have hih := ih (start + 1) (fun w => if w = v then some start else m w)
        (List.nodup_cons.mp hnd).2 p' hp'
      rw [show (v :: vs).get ⟨p' + 1, hp⟩ = vs.get ⟨p', hp'⟩ from rfl, hih]
      congr 1
      omega

theorem buildIndexMapFrom_some :
    ∀ (vs : List V) (start : Nat) (m : V → Option Nat) {w : V} {q : Nat},
      buildIndexMapFrom vs start m w = some q →
      (∃ p, ∃ hp : p < vs.length, vs.get ⟨p, hp⟩ = w ∧ q = start + p) ∨
      (w ∉ vs ∧ m w = some q) := by
  intro vs
  induction vs with
  | nil =>
    intro start m w q h
    right
    exact ⟨by simp, h⟩
  | cons v vs ih =>
    intro start m w q h
    rw [buildIndexMapFrom] at h
    rcases ih _ _ h with ⟨p, hp, heq, hq⟩ | ⟨hmem, hm⟩
    · left
      exact ⟨p + 1, by simpa using hp, by simpa using heq, by omega⟩
    · have hm2 : (if w = v then some start else m w) = some q := hm
      by_cases hw : w = v
      · left
        refine ⟨0, by simp, hw.symm, ?_⟩
        rw [if_pos hw] at hm2
        simpa using hm2.symm
      · right
        rw [if_neg hw] at hm2
        exact ⟨by simp [hw, hmem], hm2⟩

theorem pqMake_start_inv (keys : List KeyT) (values : List V)
    (hnd : values.Nodup) :
    PQInv ({ nodes := values,
             kmap := buildKeyMap keys values,
             imap := buildIndexMap values } : PQ KeyT V) := by
  refine ⟨hnd, ?_, ?_⟩
  · intro p hp
    have hg := buildIndexMapFrom_get values 0 (fun _ => none) hnd p hp
    show buildIndexMap values (nth values p) = some p
    rw [nth_eq_getElem hp]
    simpa [buildIndexMap] using hg
  · intro v q h
    rcases buildIndexMapFrom_some values 0 _ h with ⟨p, hp, heq, hq⟩ | ⟨_, hm⟩
    · have hqp : q = p := by omega
      subst hqp
      exact ⟨hp, by rw [nth_eq_getElem hp, ← heq]; rfl⟩
    · exact absurd hm (by simp)

theorem pqMake_inv (A : Nat) (isHeap : Bool) (comp : V → V → Bool)
    (keys : List KeyT) (values : List V) (hnd : values.Nodup) :
    PQInv (pqMake A isHeap comp keys values) := by
  unfold pqMake
  split
  · exact pqMake_start_inv keys values hnd
  · exact pqBuildLoop_inv _ _ (pqMake_start_inv keys values hnd)

/-! ### Each queue operation preserves the invariant -/

theorem pqPush_inv {A : Nat} {comp : V → V → Bool} {s : PQ KeyT V}
    {k : KeyT} {v : V} (hinv : PQInv s) (hfresh : v ∉ s.nodes) :
    PQInv (pqPush A comp s k v) := by
  obtain ⟨hnd, hfwd, hbwd⟩ := hinv
  unfold pqPush
  apply pqHeapifyUp_inv
  · refine ⟨?_, ?_, ?_⟩
    · simp [List.nodup_append, hnd, hfresh]
    · intro p hp
      simp only [List.length_append, List.length_singleton] at hp
      rcases Nat.lt_or_ge p s.nodes.length with hps | hps
      · have hne : nth (s.nodes ++ [v]) p ≠ v := by
          rw [nth_append_lt hps]
          intro he
          exact hfresh (he ▸ (by
            rw [nth_eq_getElem hps]
            exact List.getElem_mem hps))
        show (if nth (s.nodes ++ [v]) p = v then some s.nodes.length
            else s.imap (nth (s.nodes ++ [v]) p)) = some p
        rw [if_neg hne, nth_append_lt hps]
        exact hfwd p hps
      · have hpe : p = s.nodes.length := by omega
        rw [hpe, nth_append_last]
        show (if v = v then some s.nodes.length else s.imap v) =
          some s.nodes.length
        rw [if_pos rfl]
    · intro w q hq
      have hq2 : (if w = v then some s.nodes.length else s.imap w) =
          some q := hq
      by_cases hw : w = v
      · rw [if_pos hw] at hq2
        have hqe : q = s.nodes.length := by simpa using hq2.symm
        subst hqe
        refine ⟨by simp, ?_⟩
        rw [hw]
        exact nth_append_last s.nodes v
      · rw [if_neg hw] at hq2
        obtain ⟨hql, hqe⟩ := hbwd w q hq2
        exact ⟨by simp only [List.length_append, List.length_singleton]; omega,
          by rw [nth_append_lt hql]; exact hqe⟩
  · simp

theorem pqUpdateKey_inv {ht : HeapType} {A : Nat} {comp : V → V → Bool}
    {s : PQ KeyT V} {k : KeyT} {v : V} (hinv : PQInv s)
    (hv : v ∈ s.nodes) : PQInv (pqUpdateKey ht A comp s k v) := by
  obtain ⟨hnd, hfwd, hbwd⟩ := hinv
  obtain ⟨p, hp, hpe⟩ := List.mem_iff_getElem.mp hv
  have hiv : s.imap v = some p := by
    have := hfwd p hp
    rwa [nth_eq_getElem hp, hpe] at this
  have hgd : (s.imap v).getD 0 = p := by rw [hiv]; rfl
  have hmid : PQInv ({ nodes := s.nodes,
                       kmap := fun w => if w = v then some k else s.kmap w,
                       imap := fun w =>
                         if w = v then some ((s.imap v).getD 0)
                         else s.imap w } : PQ KeyT V) := by
    refine ⟨hnd, ?_, ?_⟩
    · intro q hq
      show (if nth s.nodes q = v then some ((s.imap v).getD 0)
          else s.imap (nth s.nodes q)) = some q
      by_cases hw : nth s.nodes q = v
      · rw [if_pos hw, hgd]
        have hqp : q = p := by
          have h1 : nth s.nodes p = v := by rw [nth_eq_getElem hp]; exact hpe
          by_contra hne
          exact nodup_nth_ne hnd hq hp hne (by rw [hw, h1])
        rw [hqp]
      · rw [if_neg hw]
        exact hfwd q hq
    · intro w q hq
      have hq2 : (if w = v then some ((s.imap v).getD 0) else s.imap w) =
          some q := hq
      by_cases hw : w = v
      · rw [if_pos hw, hgd] at hq2
        have hqp : q = p := by simpa using hq2.symm
        subst hqp
        exact ⟨hp, by rw [nth_eq_getElem hp, hpe, hw]⟩
      · rw [if_neg hw] at hq2
        exact hbwd w q hq2
  cases ht with
  | minHeap =>
    simp only [pqUpdateKey]
    apply pqHeapifyUp_inv _ _ hmid
    show (s.imap v).getD 0 < s.nodes.length
    rw [hgd]
    exact hp
  | maxHeap =>
    simp only [pqUpdateKey]
    exact pqHeapifyDown_inv _ _ hmid

theorem nth_popSeq_zero {nodes : List V} (h2 : 2 ≤ nodes.length) :
    nth (popSeq nodes) 0 = nth nodes (nodes.length - 1) := by
  unfold popSeq nth
  simp only [List.getD_eq_getElem?_getD]
  rw [List.getElem?_dropLast]
  simp only [List.length_set]
  rw [if_pos (by omega), List.getElem?_set_self (by omega)]
  rfl

theorem popSeq_nil_of_one (x : V) : popSeq [x] = ([] : List V) := by
  simp [popSeq]

theorem pqPop_inv {A : Nat} {comp : V → V → Bool} {s s' : PQ KeyT V}
    (hinv : PQInv s) (h : pqPop A comp s = some s') : PQInv s' := by
  obtain ⟨hnd, hfwd, hbwd⟩ := hinv
  rcases hs : s.nodes with _ | ⟨x, rest⟩
  · rw [pqPop, hs] at h
    simp at h
  · rw [pqPop, hs] at h
    rw [if_neg (by simp)] at h
    rw [hs] at hnd hfwd hbwd
    have hx0 : nth (x :: rest) 0 = x := rfl
    have hxrest : x ∉ rest := (List.nodup_cons.mp hnd).1
    have hndr : rest.Nodup := (List.nodup_cons.mp hnd).2
    have hppm : (popSeq (x :: rest)).Perm rest :=
      (popSeq_cons_perm x rest).cons_inv
    rcases Nat.eq_zero_or_pos rest.length with hr0 | hr0
    · rw [if_neg (by simp only [List.length_cons]; omega)] at h
      have hrest : rest = [] := List.length_eq_zero.mp hr0
      subst hrest
      rw [← Option.some_inj.mp h]
      refine ⟨by rw [popSeq_nil_of_one]; exact List.nodup_nil, ?_, ?_⟩
      · intro p hp
        rw [popSeq_nil_of_one] at hp
        exact absurd hp (by simp)
      · intro w q hq
        have hq2 : (if w = nth [x] 0 then none else s.imap w) = some q := hq
        by_cases hw : w = nth [x] 0
        · rw [if_pos hw] at hq2
          exact absurd hq2 (by simp)
        · rw [if_neg hw] at hq2
          obtain ⟨hql, hqe⟩ := hbwd w q hq2
          simp only [List.length_cons, List.length_nil] at hql
          have hq0 : q = 0 := by omega
          rw [hq0] at hqe
          exact absurd hqe.symm hw
    · rw [if_pos (by simp only [List.length_cons]; omega)] at h
      rw [← Option.some_inj.mp h]
      apply pqHeapifyDown_inv
      have hlen2 : 2 ≤ (x :: rest).length := by
        simp only [List.length_cons]
        omega
      have hfront : nth (popSeq (x :: rest)) 0 =
          nth (x :: rest) rest.length := by
        have h9 : nth (popSeq (x :: rest)) 0 =
            nth (x :: rest) ((x :: rest).length - 1) := nth_popSeq_zero hlen2
        simpa using h9
      have hfr_mem : nth (x :: rest) rest.length ∈ rest := by
        obtain ⟨kk, hkk⟩ : ∃ kk, rest.length = kk + 1 :=
          ⟨rest.length - 1, by omega⟩
        have hlt : rest.length < (x :: rest).length := by simp
        rw [nth_eq_getElem hlt]
        have hkk2 : kk < rest.length := by omega
        have hcast : (x :: rest)[rest.length] = rest[kk] := by
          simp only [hkk, List.getElem_cons_succ]
        rw [hcast]
        exact List.getElem_mem hkk2
      have hfr_ne_x : nth (x :: rest) rest.length ≠ x :=
        fun he => hxrest (he ▸ hfr_mem)
      have hndp : (popSeq (x :: rest)).Nodup := hppm.symm.nodup hndr
      have hlenp : (popSeq (x :: rest)).length = rest.length := by
        rw [popSeq_length]
        simp
      refine ⟨hndp, ?_, ?_⟩
      · intro p hp
        show (if nth (popSeq (x :: rest)) p = nth (popSeq (x :: rest)) 0
            then some 0
            else if nth (popSeq (x :: rest)) p = nth (x :: rest) 0 then none
            else s.imap (nth (popSeq (x :: rest)) p)) = some p
        rcases Nat.eq_zero_or_pos p with hp0 | hp0
        · rw [hp0, if_pos rfl]
        · rw [hlenp] at hp
          have hnth : nth (popSeq (x :: rest)) p = nth (x :: rest) p := by
            apply nth_popSeq hp0
            simp only [List.length_cons]
            omega
          have hne0 : nth (popSeq (x :: rest)) p ≠
              nth (popSeq (x :: rest)) 0 :=
            nodup_nth_ne hndp (by rw [hlenp]; exact hp)
              (by rw [hlenp]; exact hr0) (by omega)
          have hnex : nth (popSeq (x :: rest)) p ≠ nth (x :: rest) 0 := by
            rw [hnth]
            exact nodup_nth_ne hnd
              (by simp only [List.length_cons]; omega)
              (by simp) (by omega)
          rw [if_neg hne0, if_neg hnex, hnth]
          exact hfwd p (by simp only [List.length_cons]; omega)
      · intro w q hq
        have hq2 : (if w = nth (popSeq (x :: rest)) 0 then some 0
            else if w = nth (x :: rest) 0 then none else s.imap w) =
            some q := hq
        by_cases hw0 : w = nth (popSeq (x :: rest)) 0
        · rw [if_pos hw0] at hq2
          have hq0 : q = 0 := by simpa using hq2.symm
          subst hq0
          exact ⟨by rw [hlenp]; exact hr0, hw0.symm⟩
        · rw [if_neg hw0] at hq2
          by_cases hwx : w = nth (x :: rest) 0
          · rw [if_pos hwx] at hq2
            exact absurd hq2 (by simp)
          · rw [if_neg hwx] at hq2
            obtain ⟨hql, hqe⟩ := hbwd w q hq2
            simp only [List.length_cons] at hql
            have hqne0 : q ≠ 0 := by
              intro hq0
              rw [hq0] at hqe
              rw [hx0] at hwx
              exact hwx hqe.symm
            have hqnel : q ≠ rest.length := by
              intro hql2
              rw [hql2] at hqe
              rw [hfront] at hw0
              exact hw0 hqe.symm
            have hql2 : q < rest.length := by omega
            refine ⟨by rw [hlenp]; exact hql2, ?_⟩
            rw [nth_popSeq (by omega) (by simp only [List.length_cons]; omega)]
            exact hqe

/-! ### Observable effect of each operation on maps and sequence -/

theorem pqPop_eq_none_iff {A : Nat} {comp : V → V → Bool} {s : PQ KeyT V} :
    pqPop A comp s = none ↔ s.nodes = [] := by
  constructor
  · intro h
    unfold pqPop at h
    by_cases h0 : s.nodes.length = 0
    · exact List.length_eq_zero.mp h0
    · rw [if_neg h0] at h
      split at h <;> exact absurd h (by simp)
  · intro h
    unfold pqPop
    rw [if_pos (by rw [h]; rfl)]

theorem pqPop_spec {A : Nat} {comp : V → V → Bool} {s s' : PQ KeyT V}
    (h : pqPop A comp s = some s') :
    s'.kmap = (fun w => if w = nth s.nodes 0 then none else s.kmap w) ∧
    s'.nodes.Perm (popSeq s.nodes) := by
  unfold pqPop at h
  by_cases h0 : s.nodes.length = 0
  · rw [if_pos h0] at h
    exact absurd h (by simp)
  · rw [if_neg h0] at h
    by_cases h1 : 0 < s.nodes.length - 1
    · rw [if_pos h1] at h
      rw [← Option.some_inj.mp h]
      refine ⟨pqHeapifyDown_kmap _ _, ?_⟩
      rw [pqHeapifyDown_nodes]
      exact khHeapifyDown_perm A comp _ 0
    · rw [if_neg h1] at h
      rw [← Option.some_inj.mp h]
      exact ⟨rfl, List.Perm.refl _⟩

theorem pqPush_spec (A : Nat) (comp : V → V → Bool) (s : PQ KeyT V)
    (k : KeyT) (v : V) :
    (pqPush A comp s k v).kmap =
      (fun w => if w = v then some k else s.kmap w) ∧
    (pqPush A comp s k v).nodes.Perm (s.nodes ++ [v]) := by
  unfold pqPush
  refine ⟨pqHeapifyUp_kmap _ _, ?_⟩
  rw [pqHeapifyUp_nodes]
  exact khHeapifyUp_perm A comp _ _ (by simp)

theorem pqInv_imap_mem {s : PQ KeyT V} (hinv : PQInv s) {v : V}
    (hv : v ∈ s.nodes) :
    ∃ p, s.imap v = some p ∧ p < s.nodes.length ∧ nth s.nodes p = v := by
  obtain ⟨_, hfwd, _⟩ := hinv
  obtain ⟨p, hp, hpe⟩ := List.mem_iff_getElem.mp hv
  have := hfwd p hp
  rw [nth_eq_getElem hp, hpe] at this
  exact ⟨p, this, hp, by rw [nth_eq_getElem hp]; exact hpe⟩

theorem pqUpdateKey_spec (ht : HeapType) (A : Nat) (comp : V → V → Bool)
    (s : PQ KeyT V) (k : KeyT) (v : V)
    (hlt : (s.imap v).getD 0 < s.nodes.length) :
    (pqUpdateKey ht A comp s k v).kmap =
      (fun w => if w = v then some k else s.kmap w) ∧
    (pqUpdateKey ht A comp s k v).nodes.Perm s.nodes := by
  cases ht with
  | minHeap =>
    simp only [pqUpdateKey]
    refine ⟨pqHeapifyUp_kmap _ _, ?_⟩
    rw [pqHeapifyUp_nodes]
    exact khHeapifyUp_perm A comp _ _ hlt
  | maxHeap =>
    simp only [pqUpdateKey]
    refine ⟨pqHeapifyDown_kmap _ _, ?_⟩
    rw [pqHeapifyDown_nodes]
    exact khHeapifyDown_perm A comp _ _

theorem mem_popSeq {l : List V} (hnd : l.Nodup) {w : V}
    (hw : w ∈ popSeq l) : w ∈ l ∧ w ≠ nth l 0 := by
  rcases l with _ | ⟨x, rest⟩
  · simp [popSeq] at hw
  · have hppm : (popSeq (x :: rest)).Perm rest :=
      (popSeq_cons_perm x rest).cons_inv
    have hwr : w ∈ rest := hppm.subset hw
    refine ⟨List.mem_cons_of_mem _ hwr, fun he => ?_⟩
    have hx : x ∈ rest := by
      have hwx : w = x := he
      rw [← hwx]
      exact hwr
    exact (List.nodup_cons.mp hnd).1 hx

/-! ### Map consistency and key tracking over arbitrary legal runs -/

theorem pqRun_master {ht : HeapType} {A : Nat} {comp : V → V → Bool} :
    ∀ (ops : List (PQOp KeyT V)) (s : PQ KeyT V) (e : V → Option KeyT),
      PQInv s → pqLegal ht A comp s ops = true →
      (∀ v ∈ s.nodes, s.kmap v = e v) →
      PQInv (pqRun ht A comp s ops) ∧
      ∀ v ∈ (pqRun ht A comp s ops).nodes,
        (pqRun ht A comp s ops).kmap v = expKey e ops v := by
  intro ops
  induction ops with
  | nil =>
    intro s e hinv _ hk
    exact ⟨hinv, hk⟩
  | cons op ops ih =>
    intro s e hinv hleg hk
    rw [pqLegal.eq_def, Bool.and_eq_true] at hleg
    obtain ⟨hleg1, hleg2⟩ := hleg
    cases op with
    | push k v =>
      have hfresh : v ∉ s.nodes := by simpa using hleg1
      obtain ⟨hkm, hperm⟩ := pqPush_spec A comp s k v
      refine ih (pqPush A comp s k v) (fun w => if w = v then some k else e w)
        (pqPush_inv hinv hfresh) hleg2 ?_
      intro w hw
      rw [hkm]
      by_cases hwv : w = v
      · simp [hwv]
      · simp only [if_neg hwv]
        have hw2 := hperm.subset hw
        rcases List.mem_append.mp hw2 with h1 | h1
        · exact hk w h1
        · exact absurd (by simpa using h1) hwv
    | pop =>
      have hne : s.nodes ≠ [] := by simpa using hleg1
      rcases hpop : pqPop A comp s with _ | s2
      · exact absurd (pqPop_eq_none_iff.mp hpop) hne
      · have happ : pqApply ht A comp s PQOp.pop = s2 := by
          simp [pqApply, hpop]
        rw [pqRun, happ]
        rw [happ] at hleg2
        obtain ⟨hkm, hperm⟩ := pqPop_spec hpop
        refine ih s2 e (pqPop_inv hinv hpop) hleg2 ?_
        intro w hw
        rw [hkm]
        have hw2 := hperm.subset hw
        obtain ⟨hwm, hwne⟩ := mem_popSeq hinv.1 hw2
        show (if w = nth s.nodes 0 then none else s.kmap w) = e w
        rw [if_neg hwne]
        exact hk w hwm
    | update k v =>
      have hmem : v ∈ s.nodes := by simpa using hleg1
      obtain ⟨p, hip, hplt, _⟩ := pqInv_imap_mem hinv hmem
      have hlt : (s.imap v).getD 0 < s.nodes.length := by
        rw [hip]
        exact hplt
      obtain ⟨hkm, hperm⟩ := pqUpdateKey_spec ht A comp s k v hlt
      refine ih (pqUpdateKey ht A comp s k v)
        (fun w => if w = v then some k else e w)
        (pqUpdateKey_inv hinv hmem) hleg2 ?_
      intro w hw
      rw [hkm]
      by_cases hwv : w = v
      · simp [hwv]
      · simp only [if_neg hwv]
        exact hk w (hperm.subset hw)

/-! ### On an input that is already a valid heap, `heapify_down` (and hence
`build_heap`) does nothing: the `comp_est` scan never leaves its start slot. -/

theorem khFold_stay {K : Nat} {comp : T → T → Bool} {nodes : List T} {i : Nat}
    (h : ∀ j, j < K → khChild K i j < nodes.length →
      comp (nth nodes i) (nth nodes (khChild K i j)) = false) :
    ∀ js : List Nat, (∀ j ∈ js, j < K) →
      js.foldl (khStep K comp nodes i) i = i := by
  intro js
  induction js with
  | nil => intro _; rfl
  | cons j js ih =>
    intro hjs
    have hjK : j < K := hjs j (List.mem_cons_self _ _)
    simp only [List.foldl_cons]
    have hstep : khStep K comp nodes i i j = i := by
      unfold khStep
      rw [if_neg]
      simp only [Bool.and_eq_true, decide_eq_true_eq, not_and]
      intro hlt hcmp
      rw [h j hjK hlt] at hcmp
      exact absurd hcmp (by simp)
    rw [hstep]
    exact ih (fun x hx => hjs x (List.mem_cons_of_mem _ hx))

theorem khSelect_stay {K : Nat} {comp : T → T → Bool} {nodes : List T} {i : Nat}
    (hK : 0 < K) (hp : heapProp K comp nodes) :
    khSelect K comp nodes i = i := by
  apply khFold_stay ?_ (List.range K) (fun x hx => List.mem_range.mp hx)
  intro j hj hlt
  by_cases hi : i < nodes.length
  · exact hp i hi j hj hlt
  · exfalso
    have := khChild_gt (K := K) (i := i) (j := j) hK
    omega

theorem khHeapifyDown_id {K : Nat} {comp : T → T → Bool} {nodes : List T}
    (hK : 0 < K) (hp : heapProp K comp nodes) (i : Nat) :
    khHeapifyDown K comp nodes i = nodes := by
  rw [khHeapifyDown]
  by_cases hleaf : khIsLeaf K nodes.length i = true
  · rw [if_pos hleaf]
  · rw [if_neg hleaf, dif_pos (khSelect_stay hK hp)]

theorem khBuildLoop_id {K : Nat} {comp : T → T → Bool} {nodes : List T}
    (hK : 0 < K) (hp : heapProp K comp nodes) :
    ∀ c, khBuildLoop K comp nodes c = nodes := by
  intro c
  induction c with
  | zero => rfl
  | succ c ih =>
    rw [khBuildLoop, khHeapifyDown_id hK hp, ih]

theorem khMakeHeap_id {K : Nat} {comp : T → T → Bool} {nodes : List T}
    (hK : 0 < K) (hp : heapProp K comp nodes) (isHeap : Bool) :
    khMakeHeap K isHeap comp nodes = nodes := by
  unfold khMakeHeap khBuildHeap
  split
  · rfl
  · exact khBuildLoop_id hK hp _

theorem bhC1_stay {comp : T → T → Bool} {nodes : List T} {i : Nat}
    (hp : heapProp 2 comp nodes) : bhC1 comp nodes i = i := by
  unfold bhC1
  rw [if_neg]
  simp only [Bool.and_eq_true, decide_eq_true_eq, not_and]
  intro hlt hcmp
  have hil : i < nodes.length := by
    have := bhLeft_eq i
    omega
  have := hp i hil 0 (by omega) (by rw [khChild_two_zero]; exact hlt)
  rw [khChild_two_zero] at this
  rw [this] at hcmp
  exact absurd hcmp (by simp)

theorem bhSelect_stay {comp : T → T → Bool} {nodes : List T} {i : Nat}
    (hp : heapProp 2 comp nodes) : bhSelect comp nodes i = i := by
  unfold bhSelect
  rw [bhC1_stay hp, if_neg]
  simp only [Bool.and_eq_true, decide_eq_true_eq, not_and]
  intro hlt hcmp
  have hil : i < nodes.length := by
    have := bhRight_eq i
    omega
  have := hp i hil 1 (by omega) (by rw [khChild_two_one]; exact hlt)
  rw [khChild_two_one] at this
  rw [this] at hcmp
  exact absurd hcmp (by simp)

theorem bhHeapifyDown_id {comp : T → T → Bool} {nodes : List T}
    (hp : heapProp 2 comp nodes) (i : Nat) :
    bhHeapifyDown comp nodes i = nodes := by
  rw [bhHeapifyDown]
  by_cases hleaf : bhIsLeaf nodes.length i = true
  · rw [if_pos hleaf]
  · rw [if_neg hleaf, dif_pos (bhSelect_stay hp)]

theorem bhBuildLoop_id {comp : T → T → Bool} {nodes : List T}
    (hp : heapProp 2 comp nodes) :
    ∀ c, bhBuildLoop comp nodes c = nodes := by
  intro c
  induction c with
  | zero => rfl
  | succ c ih =>
    rw [bhBuildLoop, bhHeapifyDown_id hp, ih]

theorem bhMakeHeap_id {comp : T → T → Bool} {nodes : List T}
    (hp : heapProp 2 comp nodes) (isHeap : Bool) :
    bhMakeHeap isHeap comp nodes = nodes := by
  unfold bhMakeHeap bhBuildHeap
  split
  · rfl
  · exact bhBuildLoop_id hp _

/-! ### The arity gate of `KHeap` (`k_heap.h` lines 30-32)

`template <std::size_t K, …, typename = std::enable_if_t<(K > 2 && K <= 64)>>`:
a `KHeap` specialisation exists only for `2 < K ≤ 64`; any other arity is
rejected at construction.  The spec's error taxonomy names the rejection
`ConfigurationError`. -/

inductive ConfigErr : Type where
  | configurationError : ConfigErr
deriving DecidableEq

def khArityOk (K : Nat) : Bool := decide (2 < K) && decide (K ≤ 64)

def makeKHeap (K : Nat) (isHeap : Bool) (comp : T → T → Bool)
    (nodes : List T) : Except ConfigErr (List T) :=
  if khArityOk K then Except.ok (khMakeHeap K isHeap comp nodes)
  else Except.error ConfigErr.configurationError

/-! ### `update_key` never reads the stored keys

The sequence produced by the queue's sifts is a pure function of the old
sequence (`pqHeapifyUp_nodes`/`pqHeapifyDown_nodes`); the two functions below
compute the index map a sift produces from the old sequence and old index map
alone, showing `key_map_` never feeds back into either. -/

def imapUp (A : Nat) (comp : V → V → Bool) (nodes : List V)
    (m : V → Option Nat) (i : Nat) : V → Option Nat :=
  if h : 0 < i ∧ comp (nth nodes (khParent A i)) (nth nodes i) = true then
    imapUp A comp (swapL nodes i (khParent A i))
      (fun v =>
        if v = nth nodes i then
          some ((m (nth nodes (khParent A i))).getD 0)
        else if v = nth nodes (khParent A i) then
          some ((m (nth nodes i)).getD 0)
        else m v)
      (khParent A i)
  else m
termination_by i
decreasing_by
  simp only [khParent]
  have := Nat.div_le_self (i - 1) A
  omega

def imapDown (A : Nat) (comp : V → V → Bool) (nodes : List V)
    (m : V → Option Nat) (i : Nat) : V → Option Nat :=
  if khIsLeaf A nodes.length i then m
  else if h : khSelect A comp nodes i = i then m
  else imapDown A comp (swapL nodes i (khSelect A comp nodes i))
    (fun v =>
      if v = nth nodes i then
        some ((m (nth nodes (khSelect A comp nodes i))).getD 0)
      else if v = nth nodes (khSelect A comp nodes i) then
        some ((m (nth nodes i)).getD 0)
      else m v)
    (khSelect A comp nodes i)
termination_by nodes.length - i
decreasing_by
  have hb := khSelect_bounds h
  simp only [swapL_length]
  omega

theorem pqHeapifyUp_imap {A : Nat} {comp : V → V → Bool} :
    ∀ (s : PQ KeyT V) (i : Nat),
      (pqHeapifyUp A comp s i).imap = imapUp A comp s.nodes s.imap i := by
  intro s i
  induction s, i using pqHeapifyUp.induct A comp with
  | case1 s i h ih =>
    rw [pqHeapifyUp, dif_pos h, imapUp, dif_pos h]
    exact ih
  | case2 s i h => rw [pqHeapifyUp, dif_neg h, imapUp, dif_neg h]

theorem pqHeapifyDown_imap {A : Nat} {comp : V → V → Bool} :
    ∀ (s : PQ KeyT V) (i : Nat),
      (pqHeapifyDown A comp s i).imap = imapDown A comp s.nodes s.imap i := by
  intro s i
  induction s, i using pqHeapifyDown.induct A comp with
  | case1 s i hleaf =>
    rw [pqHeapifyDown, if_pos hleaf, imapDown, if_pos hleaf]
  | case2 s i hleaf hsel =>
    rw [pqHeapifyDown, if_neg hleaf, dif_pos hsel, imapDown,
      if_neg hleaf, dif_pos hsel]
  | case3 s i hleaf hsel ih =>
    rw [pqHeapifyDown, if_neg hleaf, dif_neg hsel, imapDown,
      if_neg hleaf, dif_neg hsel]
    exact ih

/-- Modelled from the spec's words: a min-heap-backed `update_key` records
the key and then *only* sifts up from the value's recorded slot. -/
def updateKeySiftUpOnly (A : Nat) (comp : V → V → Bool) (s : PQ KeyT V)
    (k : KeyT) (v : V) : PQ KeyT V :=
  pqHeapifyUp A comp
    { nodes := s.nodes
      kmap := fun w => if w = v then some k else s.kmap w
      imap := fun w => if w = v then some ((s.imap v).getD 0) else s.imap w }
    ((s.imap v).getD 0)

/-- Modelled from the spec's words: a max-heap-backed `update_key` records
the key and then *only* sifts down from the value's recorded slot. -/
def updateKeySiftDownOnly (A : Nat) (comp : V → V → Bool) (s : PQ KeyT V)
    (k : KeyT) (v : V) : PQ KeyT V :=
  pqHeapifyDown A comp
    { nodes := s.nodes
      kmap := fun w => if w = v then some k else s.kmap w
      imap := fun w => if w = v then some ((s.imap v).getD 0) else s.imap w }
    ((s.imap v).getD 0)

/-! ### `update_key` / `key_at` on an absent value

`update_key` reads `index_map_[element]` through `operator[]`, which
value-initializes an absent entry to 0 and proceeds; the sift then runs from
slot 0 while the element itself is nowhere in the sequence.  The lemmas here
show the sifts never touch such a phantom entry, so the queue ends with
`index_map_[v] = 0` for a value `v` that occupies no slot — the advertised
map-consistency is gone for good. -/

theorem pqInv_imap_absent {s : PQ KeyT V} (hinv : PQInv s) {v : V}
    (hv : v ∉ s.nodes) : s.imap v = none := by
  obtain ⟨_, _, hbwd⟩ := hinv
  cases himap : s.imap v with
  | none => rfl
  | some p =>
    obtain ⟨hp, hnp⟩ := hbwd v p himap
    exact absurd (hnp ▸ (nth_eq_getElem hp ▸ List.getElem_mem hp)) hv

theorem pqHeapifyDown_absent (A : Nat) (comp : V → V → Bool) :
    ∀ (s : PQ KeyT V) (i : Nat) {v : V}, v ∉ s.nodes →
      (pqHeapifyDown A comp s i).imap v = s.imap v ∧
      v ∉ (pqHeapifyDown A comp s i).nodes := by
  intro s i
  induction s, i using pqHeapifyDown.induct A comp with
  | case1 s i hleaf =>
    intro v hv
    rw [pqHeapifyDown, if_pos hleaf]
    exact ⟨rfl, hv⟩
  | case2 s i hleaf hsel =>
    intro v hv
    rw [pqHeapifyDown, if_neg hleaf, dif_pos hsel]
    exact ⟨rfl, hv⟩
  | case3 s i hleaf hsel ih =>
    intro v hv
    rw [pqHeapifyDown, if_neg hleaf, dif_neg hsel]
    have hb := khSelect_bounds hsel
    have hil : i < s.nodes.length := by omega
    have hvi : v ≠ nth s.nodes i := by
      intro he
      exact hv (he ▸ (nth_eq_getElem hil ▸ List.getElem_mem hil))
    have hvc : v ≠ nth s.nodes (khSelect A comp s.nodes i) := by
      intro he
      exact hv (he ▸ (nth_eq_getElem hb.2 ▸ List.getElem_mem hb.2))
    have hv2 : v ∉ (pqSwapNodes s i (khSelect A comp s.nodes i)).nodes := by
      intro hm
      exact hv ((swapL_perm s.nodes hil hb.2).subset hm)
    obtain ⟨h1, h2⟩ := ih hv2
    refine ⟨?_, h2⟩
    rw [h1]
    show (if v = nth s.nodes i then _
      else if v = nth s.nodes (khSelect A comp s.nodes i) then _
      else s.imap v) = s.imap v
    rw [if_neg hvi, if_neg hvc]

theorem pqUpdateKey_absent (ht : HeapType) (A : Nat) (comp : V → V → Bool)
    {s : PQ KeyT V} (k : KeyT) {v : V} (hinv : PQInv s) (hv : v ∉ s.nodes) :
    (pqUpdateKey ht A comp s k v).imap v = some 0 ∧
    v ∉ (pqUpdateKey ht A comp s k v).nodes := by
  have hiv : s.imap v = none := pqInv_imap_absent hinv hv
  cases ht with
  | minHeap =>
    simp only [pqUpdateKey, hiv, Option.getD_none]
    rw [pqHeapifyUp, dif_neg (by simp)]
    refine ⟨?_, hv⟩
    show (if v = v then some 0 else s.imap v) = some 0
    rw [if_pos rfl]
  | maxHeap =>
    simp only [pqUpdateKey, hiv, Option.getD_none]
    have hv1 : v ∉ (PQ.mk s.nodes
        (fun w => if w = v then some k else s.kmap w)
        (fun w => if w = v then some 0 else s.imap w) : PQ KeyT V).nodes := hv
    obtain ⟨h1, h2⟩ := pqHeapifyDown_absent A comp _ 0 hv1
    refine ⟨?_, h2⟩
    rw [h1]
    show (if v = v then some 0 else s.imap v) = some 0
    rw [if_pos rfl]

/-! ### `push` of a value that is already present

`PriorityQueue::push` never checks `contains`: the inherited `Heap::push`
appends a second copy of the value, while `key_map_[value]` and
`index_map_[value]` are single entries that are simply overwritten.  The walk
below tracks the appended slot through `heapify_up` and shows exactly which
slot `index_map_[value]` ends up naming. -/

theorem two_le_count_of_ne {l : List V} :
    ∀ {p q : Nat} {w : V}, p < l.length → q < l.length → p ≠ q →
      nth l p = w → nth l q = w → 2 ≤ l.count w := by
  induction l with
  | nil =>
    intro p q w hp _ _ _ _
    simp at hp
  | cons a l ih =>
    intro p q w hp hq hne hpw hqw
    rcases p with _ | i <;> rcases q with _ | j
    · exact absurd rfl hne
    · have haw : a = w := hpw
      have hjl : j < l.length := by simpa using hq
      have hwl : w ∈ l := by
        have hqw2 : nth l j = w := hqw
        rw [nth_eq_getElem hjl] at hqw2
        exact hqw2 ▸ List.getElem_mem hjl
      subst haw
      rw [List.count_cons_self]
      have := List.count_pos_iff.mpr hwl
      omega
    · have haw : a = w := hqw
      have hil : i < l.length := by simpa using hp
      have hwl : w ∈ l := by
        have hpw2 : nth l i = w := hpw
        rw [nth_eq_getElem hil] at hpw2
        exact hpw2 ▸ List.getElem_mem hil
      subst haw
      rw [List.count_cons_self]
      have := List.count_pos_iff.mpr hwl
      omega
    · have h2 := ih (p := i) (q := j) (w := w) (by simpa using hp)
        (by simpa using hq) (by omega) hpw hqw
      rw [List.count_cons]
      omega

/-- The slot at which the element sifted up from slot `i` comes to rest
(the loop of `heap.h` lines 66-74, tracking the moving index). -/
def upFinalPos (A : Nat) (comp : V → V → Bool) (nodes : List V) (i : Nat) :
    Nat :=
  if h : 0 < i ∧ comp (nth nodes (khParent A i)) (nth nodes i) = true then
    upFinalPos A comp (swapL nodes i (khParent A i)) (khParent A i)
  else i
termination_by i
decreasing_by
  simp only [khParent]
  have := Nat.div_le_self (i - 1) A
  omega

theorem pqHeapifyUp_dup (A : Nat) (comp : V → V → Bool) {v : V}
    (Hasym : compAsymm comp) :
    ∀ (s : PQ KeyT V) (cur : Nat),
      cur < s.nodes.length →
      nth s.nodes cur = v →
      s.imap v = some cur →
      (∀ p, p < s.nodes.length → nth s.nodes p ≠ v →
        s.imap (nth s.nodes p) = some p) →
      (∀ w, w ≠ v → s.nodes.count w ≤ 1) →
      (pqHeapifyUp A comp s cur).imap v =
        some (upFinalPos A comp s.nodes cur) ∧
      nth (pqHeapifyUp A comp s cur).nodes
        (upFinalPos A comp s.nodes cur) = v ∧
      upFinalPos A comp s.nodes cur < (pqHeapifyUp A comp s cur).nodes.length := by
  intro s cur
  induction s, cur using pqHeapifyUp.induct A comp with
  | case2 s cur h =>
    intro hlt hnth himap _ _
    rw [pqHeapifyUp, dif_neg h, upFinalPos, dif_neg h]
    exact ⟨himap, hnth, hlt⟩
  | case1 s cur h ih =>
    intro hlt hnth himap hpos hcount
    obtain ⟨hcur0, hcmp⟩ := h
    have hplt : khParent A cur < cur := khParent_lt hcur0
    have hpl : khParent A cur < s.nodes.length := lt_trans hplt hlt
    have hwv : nth s.nodes (khParent A cur) ≠ v := by
      intro he
      rw [he, hnth] at hcmp
      rw [comp_irrefl Hasym v] at hcmp
      exact absurd hcmp (by simp)
    have himap_w : s.imap (nth s.nodes (khParent A cur)) =
        some (khParent A cur) := hpos _ hpl hwv
    have hlen1 : (pqSwapNodes s cur (khParent A cur)).nodes.length =
        s.nodes.length := swapL_length _ _ _
    have hn1 : nth (pqSwapNodes s cur (khParent A cur)).nodes
        (khParent A cur) = v := by
      show nth (swapL s.nodes cur (khParent A cur)) (khParent A cur) = v
      rw [nth_swapL_right s.nodes hpl, hnth]
    have hi1 : (pqSwapNodes s cur (khParent A cur)).imap v =
        some (khParent A cur) := by
      show (if v = nth s.nodes cur then
          some ((s.imap (nth s.nodes (khParent A cur))).getD 0)
        else if v = nth s.nodes (khParent A cur) then
          some ((s.imap (nth s.nodes cur)).getD 0)
        else s.imap v) = some (khParent A cur)
      rw [if_pos hnth.symm, himap_w]
      rfl
    have hpos1 : ∀ p, p < (pqSwapNodes s cur (khParent A cur)).nodes.length →
        nth (pqSwapNodes s cur (khParent A cur)).nodes p ≠ v →
        (pqSwapNodes s cur (khParent A cur)).imap
          (nth (pqSwapNodes s cur (khParent A cur)).nodes p) = some p := by
      intro p hp hpv
      rw [hlen1] at hp
      by_cases hpc : p = cur
      · subst hpc
        have he : nth (pqSwapNodes s p (khParent A p)).nodes p =
            nth s.nodes (khParent A p) := nth_swapL_left s.nodes hlt
        rw [he]
        show (if nth s.nodes (khParent A p) = nth s.nodes p then
            some ((s.imap (nth s.nodes (khParent A p))).getD 0)
          else if nth s.nodes (khParent A p) = nth s.nodes (khParent A p) then
            some ((s.imap (nth s.nodes p)).getD 0)
          else s.imap (nth s.nodes (khParent A p))) = some p
        rw [hnth, if_neg hwv, if_pos rfl, himap]
        rfl
      · by_cases hpp : p = khParent A cur
        · subst hpp
          exact absurd hn1 hpv
        · have he : nth (pqSwapNodes s cur (khParent A cur)).nodes p =
              nth s.nodes p := nth_swapL_other s.nodes hpc hpp
          rw [he] at hpv ⊢
          have hu_ne_w : nth s.nodes p ≠ nth s.nodes (khParent A cur) := by
            intro he2
            have h2 := two_le_count_of_ne hp hpl hpp he2 rfl
            have h3 := hcount _ hwv
            omega
          show (if nth s.nodes p = nth s.nodes cur then
              some ((s.imap (nth s.nodes (khParent A cur))).getD 0)
            else if nth s.nodes p = nth s.nodes (khParent A cur) then
              some ((s.imap (nth s.nodes cur)).getD 0)
            else s.imap (nth s.nodes p)) = some p
          rw [hnth, if_neg hpv, if_neg hu_ne_w]
          exact hpos p hp hpv
    have hcount1 : ∀ w, w ≠ v →
        (pqSwapNodes s cur (khParent A cur)).nodes.count w ≤ 1 := by
      intro w hw
      have hperm := swapL_perm s.nodes hlt hpl
      show (swapL s.nodes cur (khParent A cur)).count w ≤ 1
      rw [hperm.count_eq]
      exact hcount w hw
    obtain ⟨g1, g2, g3⟩ := ih (by rw [hlen1]; exact lt_trans hplt hlt)
      hn1 hi1 hpos1 hcount1
    rw [pqHeapifyUp, dif_pos ⟨hcur0, hcmp⟩, upFinalPos, dif_pos ⟨hcur0, hcmp⟩]
    exact ⟨g1, g2, g3⟩

/-! ### The standard comparators

`std::less<T>` / `std::greater<T>` on a totally ordered type: the test
suites instantiate the max-heaps with `std::less` and the min-heaps with
`std::greater`. -/

def ltComp (T : Type) [LinearOrder T] : T → T → Bool := fun a b => decide (a < b)

def gtComp (T : Type) [LinearOrder T] : T → T → Bool := fun a b => decide (b < a)

theorem ltComp_asymm (T : Type) [LinearOrder T] : compAsymm (ltComp T) := by
  intro a b h
  simp only [ltComp, decide_eq_true_eq] at h
  simp only [ltComp, decide_eq_false_iff_not]
  exact lt_asymm h

theorem ltComp_negTrans (T : Type) [LinearOrder T] : compNegTrans (ltComp T) := by
  intro a b c hab hbc
  simp only [ltComp, decide_eq_false_iff_not] at hab hbc ⊢
  intro hac
  exact hab (lt_of_lt_of_le hac (le_of_not_lt hbc))

theorem gtComp_asymm (T : Type) [LinearOrder T] : compAsymm (gtComp T) := by
  intro a b h
  simp only [gtComp, decide_eq_true_eq] at h
  simp only [gtComp, decide_eq_false_iff_not]
  exact lt_asymm h

theorem gtComp_negTrans (T : Type) [LinearOrder T] : compNegTrans (gtComp T) := by
  intro a b c hab hbc
  simp only [gtComp, decide_eq_false_iff_not] at hab hbc ⊢
  intro hac
  exact hbc (lt_of_lt_of_le hac (le_of_not_lt hab))

/-! ### Fuel-counted evaluators

The loops above are translated by well-founded recursion, which the kernel
does not unfold on closed input; the fuel-counted twins below recurse
structurally and are proved equal to them, so concrete runs can be settled
by `decide`. -/

def bhHeapifyDownF (comp : T → T → Bool) : Nat → List T → Nat → List T
  | 0, nodes, _ => nodes
  | fuel + 1, nodes, i =>
    if bhIsLeaf nodes.length i then nodes
    else if bhSelect comp nodes i = i then nodes
    else bhHeapifyDownF comp fuel (swapL nodes i (bhSelect comp nodes i))
      (bhSelect comp nodes i)

def bhBuildLoopF (comp : T → T → Bool) : List T → Nat → List T
  | nodes, 0 => nodes
  | nodes, c + 1 =>
    bhBuildLoopF comp (bhHeapifyDownF comp nodes.length nodes c) c

def bhPopAllF (comp : T → T → Bool) : Nat → List T → List T
  | 0, _ => []
  | fuel + 1, nodes =>
    match nodes with
    | [] => []
    | x :: rest =>
      x :: bhPopAllF comp fuel
        (bhHeapifyDownF comp (rest.length + 1) (popSeq (x :: rest)) 0)

theorem bhC1_ge {comp : T → T → Bool} {nodes : List T} {i : Nat}
    (h : nodes.length ≤ i) : bhC1 comp nodes i = i := by
  unfold bhC1
  rw [if_neg]
  simp only [Bool.and_eq_true, decide_eq_true_eq, not_and]
  intro hlt
  exfalso
  have := bhLeft_eq i
  omega

theorem bhSelect_ge {comp : T → T → Bool} {nodes : List T} {i : Nat}
    (h : nodes.length ≤ i) : bhSelect comp nodes i = i := by
  unfold bhSelect
  rw [bhC1_ge h, if_neg]
  simp only [Bool.and_eq_true, decide_eq_true_eq, not_and]
  intro hlt
  exfalso
  have := bhRight_eq i
  omega

theorem bhHeapifyDownF_eq (comp : T → T → Bool) :
    ∀ (fuel : Nat) (nodes : List T) (i : Nat), nodes.length - i ≤ fuel →
      bhHeapifyDownF comp fuel nodes i = bhHeapifyDown comp nodes i := by
  intro fuel
  induction fuel with
  | zero =>
    intro nodes i h
    have hge : nodes.length ≤ i := by omega
    rw [bhHeapifyDownF, bhHeapifyDown]
    by_cases hleaf : bhIsLeaf nodes.length i = true
    · rw [if_pos hleaf]
    · rw [if_neg hleaf, dif_pos (bhSelect_ge hge)]
  | succ fuel ih =>
    intro nodes i h
    rw [bhHeapifyDownF, bhHeapifyDown]
    by_cases hleaf : bhIsLeaf nodes.length i = true
    · rw [if_pos hleaf, if_pos hleaf]
    · rw [if_neg hleaf, if_neg hleaf]
      by_cases hsel : bhSelect comp nodes i = i
      · rw [if_pos hsel, dif_pos hsel]
      · rw [if_neg hsel, dif_neg hsel]
        have hb := bhSelect_bounds hsel
        apply ih
        rw [swapL_length]
        omega

theorem bhBuildLoopF_eq (comp : T → T → Bool) :
    ∀ (c : Nat) (nodes : List T),
      bhBuildLoopF comp nodes c = bhBuildLoop comp nodes c := by
  intro c
  induction c with
  | zero => intro nodes; rfl
  | succ c ih =>
    intro nodes
    rw [bhBuildLoopF, bhBuildLoop,
      bhHeapifyDownF_eq comp nodes.length nodes c (by omega), ih]

theorem bhPopAllF_eq (comp : T → T → Bool) :
    ∀ (fuel : Nat) (nodes : List T), nodes.length ≤ fuel →
      bhPopAllF comp fuel nodes = bhPopAll comp nodes := by
  intro fuel
  induction fuel with
  | zero =>
    intro nodes h
    have : nodes = [] := List.length_eq_zero.mp (by omega)
    subst this
    simp [bhPopAllF, bhPopAll]
  | succ fuel ih =>
    intro nodes h
    cases nodes with
    | nil => simp [bhPopAllF, bhPopAll]
    | cons x rest =>
      rw [bhPopAll]
      show x :: bhPopAllF comp fuel
          (bhHeapifyDownF comp (rest.length + 1) (popSeq (x :: rest)) 0) =
        x :: bhPopAll comp (bhHeapifyDown comp (popSeq (x :: rest)) 0)
      rw [bhHeapifyDownF_eq comp (rest.length + 1) (popSeq (x :: rest)) 0
        (by rw [popSeq_length]; simp)]
      rw [ih]
      rw [bhHeapifyDown_length, popSeq_length]
      simp only [List.length_cons] at h ⊢
      omega

/-! ### A one-element queue used to instantiate the queue-level theorems -/

def pqOne : PQ Nat Nat :=
  { nodes := [5]
    kmap := fun w => if w = 5 then some 1 else none
    imap := fun w => if w = 5 then some 0 else none }

theorem pqSingletonInv : PQInv pqOne := by
  refine ⟨by decide, ?_, ?_⟩
  · intro p hp
    have hp2 : p < 1 := hp
    have hp0 : p = 0 := by omega
    subst hp0
    decide
  · intro w i hw
    have hw2 : (if w = 5 then some 0 else (none : Option Nat)) = some i := hw
    by_cases h5 : w = 5
    · rw [if_pos h5] at hw2
      have hi : i = 0 := (Option.some_inj.mp hw2).symm
      subst hi
      subst h5
      exact ⟨by decide, by decide⟩
    · rw [if_neg h5] at hw2
      exact absurd hw2 (by simp)

/-! ## The claims -/

/-- Claim C1: from a valid construction with unique values, after any legal
sequence of push/pop/update_key the two maps are exact inverses of the
sequence contents — `index_map_[v]` names the slot currently holding `v`,
and `key_map_[v]` is the key most recently assigned to `v` (at construction,
by `push`, or by `update_key`). -/
theorem pq_run_map_consistency {KeyT V : Type} [Inhabited V] [DecidableEq V]
    (ht : HeapType) (A : Nat) (comp : V → V → Bool) (isHeap : Bool)
    (keys : List KeyT) (values : List V) (ops : List (PQOp KeyT V))
    (hnd : values.Nodup)
    (hleg : pqLegal ht A comp (pqMake A isHeap comp keys values) ops = true) :
    MapsConsistent (pqRun ht A comp (pqMake A isHeap comp keys values) ops) ∧
    (pqRun ht A comp (pqMake A isHeap comp keys values) ops).nodes.Nodup ∧
    ∀ v ∈ (pqRun ht A comp (pqMake A isHeap comp keys values) ops).nodes,
      (pqRun ht A comp (pqMake A isHeap comp keys values) ops).kmap v =
        expKey (buildKeyMap keys values) ops v := by
  have hstart := pqMake_inv A isHeap comp keys values hnd
  have hkm : ∀ v ∈ (pqMake A isHeap comp keys values).nodes,
      (pqMake A isHeap comp keys values).kmap v = buildKeyMap keys values v := by
    intro v _
    unfold pqMake pqBuildHeap
    split
    · rfl
    · rw [pqBuildLoop_kmap]
  obtain ⟨⟨hnodup, hmc⟩, hkeys⟩ :=
    pqRun_master ops (pqMake A isHeap comp keys values)
      (buildKeyMap keys values) hstart hleg hkm
  exact ⟨hmc, hnodup, hkeys⟩

/-- Witness for C1: a one-element construction and the empty run. -/
theorem pq_run_map_consistency_witness :
    ([4] : List Nat).Nodup ∧
    pqLegal HeapType.minHeap 3 (gtComp Nat)
      (pqMake 3 true (gtComp Nat) ([9] : List Nat) [4]) [] = true ∧
    MapsConsistent (pqRun HeapType.minHeap 3 (gtComp Nat)
      (pqMake 3 true (gtComp Nat) ([9] : List Nat) [4]) []) :=
  ⟨by decide, rfl,
    (pq_run_map_consistency HeapType.minHeap 3 (gtComp Nat) true [9] [4] []
      (by decide) rfl).1⟩

/-- Claim C2: after construction in build mode (`IsHeap = false`) and after
every completed `push`/`pop`, the heap property holds on both backends: for
every slot `i` and in-bounds child `c`, `comp(nodes[i], nodes[c])` is false
(k-ary inputs of representable `size_t` size). -/
theorem heap_property_after_mutations {T : Type} [Inhabited T]
    (comp : T → T → Bool) (Hasym : compAsymm comp) (Hnt : compNegTrans comp) :
    (∀ nodes : List T, heapProp 2 comp (bhMakeHeap false comp nodes)) ∧
    (∀ (nodes : List T) (x : T), heapProp 2 comp nodes →
      heapProp 2 comp (bhPush comp nodes x)) ∧
    (∀ nodes out : List T, heapProp 2 comp nodes →
      bhPop comp nodes = Except.ok out → heapProp 2 comp out) ∧
    (∀ (K : Nat) (nodes : List T), 0 < K → nodes.length < usizeMod →
      heapProp K comp (khMakeHeap K false comp nodes)) ∧
    (∀ (K : Nat) (nodes : List T) (x : T), 0 < K → heapProp K comp nodes →
      heapProp K comp (khPush K comp nodes x)) ∧
    (∀ (K : Nat) (nodes out : List T), 0 < K → nodes.length < usizeMod →
      heapProp K comp nodes → khPop K comp nodes = Except.ok out →
      heapProp K comp out) := by
  refine ⟨?_, ?_, ?_, ?_, ?_, ?_⟩
  · intro nodes
    rw [heapProp_iff_heapFrom 2 (by omega)]
    unfold bhMakeHeap
    rw [if_neg (by simp)]
    exact bhBuildHeap_heapFrom Hasym Hnt nodes
  · intro nodes x hp
    rw [heapProp_iff_heapFrom 2 (by omega)] at hp ⊢
    exact bhPush_heapFrom Hasym Hnt x hp
  · intro nodes out hp hout
    rw [heapProp_iff_heapFrom 2 (by omega)] at hp ⊢
    exact bhPop_heapFrom Hasym Hnt hp hout
  · intro K nodes hK hn
    rw [heapProp_iff_heapFrom K hK]
    unfold khMakeHeap
    rw [if_neg (by simp)]
    exact khBuildHeap_heapFrom Hasym Hnt hK nodes hn
  · intro K nodes x hK hp
    rw [heapProp_iff_heapFrom K hK] at hp ⊢
    exact khPush_heapFrom Hasym Hnt x hp
  · intro K nodes out hK hn hp hout
    rw [heapProp_iff_heapFrom K hK] at hp ⊢
    exact khPop_heapFrom Hasym Hnt hK hn hp hout

/-- Witness for C2 at `std::less<Nat>` and a concrete build. -/
theorem heap_property_after_mutations_witness :
    compAsymm (ltComp Nat) ∧ compNegTrans (ltComp Nat) ∧
    heapProp 2 (ltComp Nat) (bhMakeHeap false (ltComp Nat) [3, 1, 2]) :=
  ⟨ltComp_asymm Nat, ltComp_negTrans Nat,
    (heap_property_after_mutations (ltComp Nat) (ltComp_asymm Nat)
      (ltComp_negTrans Nat)).1 [3, 1, 2]⟩

/-- Claim C3: full extraction (top-then-pop until empty) of a built heap
yields the input multiset fully sorted — descending for a max heap
(`std::less`), ascending for a min heap (`std::greater`) — and a max binary
heap built from `[30,1,50,20,40,60,100]` pops `[100,60,50,40,30,20,1]`. -/
theorem heap_extraction_order {T : Type} [Inhabited T] [LinearOrder T] :
    (∀ nodes : List T,
      (bhPopAll (ltComp T) (bhMakeHeap false (ltComp T) nodes)).Perm nodes ∧
      List.Pairwise (fun a b => b ≤ a)
        (bhPopAll (ltComp T) (bhMakeHeap false (ltComp T) nodes)) ∧
      (bhPopAll (gtComp T) (bhMakeHeap false (gtComp T) nodes)).Perm nodes ∧
      List.Pairwise (fun a b => a ≤ b)
        (bhPopAll (gtComp T) (bhMakeHeap false (gtComp T) nodes))) ∧
    bhPopAll (ltComp Nat)
        (bhMakeHeap false (ltComp Nat) [30, 1, 50, 20, 40, 60, 100]) =
      [100, 60, 50, 40, 30, 20, 1] := by
  constructor
  · intro nodes
    have hmk : ∀ c : T → T → Bool,
        bhMakeHeap false c nodes = bhBuildHeap c nodes := by
      intro c
      unfold bhMakeHeap
      rw [if_neg (by simp)]
    have hlt := bhPopAll_sorted (ltComp_asymm T) (ltComp_negTrans T)
      (bhMakeHeap false (ltComp T) nodes)
      (by rw [hmk]
          exact bhBuildHeap_heapFrom (ltComp_asymm T) (ltComp_negTrans T) nodes)
    have hgt := bhPopAll_sorted (gtComp_asymm T) (gtComp_negTrans T)
      (bhMakeHeap false (gtComp T) nodes)
      (by rw [hmk]
          exact bhBuildHeap_heapFrom (gtComp_asymm T) (gtComp_negTrans T) nodes)
    have hbp : ∀ c : T → T → Bool, (bhMakeHeap false c nodes).Perm nodes := by
      intro c
      rw [hmk]
      exact bhBuildLoop_perm c nodes _
    refine ⟨hlt.1.trans (hbp _), ?_, hgt.1.trans (hbp _), ?_⟩
    · exact hlt.2.imp (fun h => le_of_not_lt (by simpa [ltComp] using h))
    · exact hgt.2.imp (fun h => le_of_not_lt (by simpa [gtComp] using h))
  · unfold bhMakeHeap bhBuildHeap
    rw [if_neg (by simp), ← bhBuildLoopF_eq,
      ← bhPopAllF_eq (ltComp Nat) 7 _
        (by rw [bhBuildLoopF_eq, bhBuildLoop_length]; decide)]
    decide

/-- Claim C4: `update_key` picks its sift direction purely by heap kind —
min-heap-backed queues only sift up from the value's recorded slot,
max-heap-backed only sift down — and never consults the stored keys: the
resulting sequence and index map are unchanged under any replacement of
`key_map_`, in particular of the value's previous key. -/
theorem pq_update_key_direction {KeyT V : Type} [Inhabited V] [DecidableEq V]
    (A : Nat) (comp : V → V → Bool) (s : PQ KeyT V) (k : KeyT) (v : V) :
    pqUpdateKey HeapType.minHeap A comp s k v =
      updateKeySiftUpOnly A comp s k v ∧
    pqUpdateKey HeapType.maxHeap A comp s k v =
      updateKeySiftDownOnly A comp s k v ∧
    (∀ (ht : HeapType) (km : V → Option KeyT),
      (pqUpdateKey ht A comp (PQ.mk s.nodes km s.imap) k v).nodes =
        (pqUpdateKey ht A comp s k v).nodes ∧
      (pqUpdateKey ht A comp (PQ.mk s.nodes km s.imap) k v).imap =
        (pqUpdateKey ht A comp s k v).imap) := by
  refine ⟨rfl, rfl, ?_⟩
  intro ht km
  cases ht with
  | minHeap =>
    constructor
    · simp only [pqUpdateKey]
      rw [pqHeapifyUp_nodes, pqHeapifyUp_nodes]
    · simp only [pqUpdateKey]
      rw [pqHeapifyUp_imap, pqHeapifyUp_imap]
  | maxHeap =>
    constructor
    · simp only [pqUpdateKey]
      rw [pqHeapifyDown_nodes, pqHeapifyDown_nodes]
    · simp only [pqUpdateKey]
      rw [pqHeapifyDown_imap, pqHeapifyDown_imap]

/-- Claim C5 (amended): a K=2 `KHeap` object cannot exist — the `enable_if`
gate (`k_heap.h` lines 30-32) rejects the arity at construction — but the
k-ary *algorithm* evaluated at `K = 2` does match the binary strategy's
extraction order, size and heap-property validity on every representable
input. -/
theorem kheap_two_matches_binary {T : Type} [Inhabited T]
    (comp : T → T → Bool) (isHeap : Bool) (nodes : List T)
    (hn : nodes.length < usizeMod) :
    khPopAll 2 comp (khMakeHeap 2 isHeap comp nodes) =
      bhPopAll comp (bhMakeHeap isHeap comp nodes) ∧
    (khMakeHeap 2 isHeap comp nodes).length =
      (bhMakeHeap isHeap comp nodes).length ∧
    (heapProp 2 comp (khMakeHeap 2 isHeap comp nodes) ↔
      heapProp 2 comp (bhMakeHeap isHeap comp nodes)) := by
  have hmk : khMakeHeap 2 isHeap comp nodes = bhMakeHeap isHeap comp nodes := by
    unfold khMakeHeap bhMakeHeap
    by_cases hih : isHeap = true
    · rw [if_pos hih, if_pos hih]
    · rw [if_neg hih, if_neg hih]
      exact (bhBuildHeap_eq comp nodes hn).symm
  have hml : (bhMakeHeap isHeap comp nodes).length = nodes.length := by
    unfold bhMakeHeap bhBuildHeap
    by_cases hih : isHeap = true
    · rw [if_pos hih]
    · rw [if_neg hih, bhBuildLoop_length]
  rw [hmk]
  exact ⟨(bhPopAll_eq comp _ (by rw [hml]; exact hn)).symm, rfl, Iff.rfl⟩

/-- Counterexample to C5 as stated: the k-ary strategy rejects arity 2 at
construction (the spec's `ConfigurationError`), so no K=2 `KHeap` input
exists to compare with a binary heap. -/
theorem kheap_two_rejected :
    makeKHeap 2 false (ltComp Nat) [3, 1, 2] =
      Except.error ConfigErr.configurationError := rfl

/-- Witness for the amended C5 at a concrete input. -/
theorem kheap_two_matches_binary_witness :
    ([3, 1, 2] : List Nat).length < usizeMod ∧
    khPopAll 2 (ltComp Nat) (khMakeHeap 2 false (ltComp Nat) [3, 1, 2]) =
      bhPopAll (ltComp Nat) (bhMakeHeap false (ltComp Nat) [3, 1, 2]) :=
  ⟨by decide,
    (kheap_two_matches_binary (ltComp Nat) false [3, 1, 2] (by decide)).1⟩

/-- Claim C6: the constructors turn an empty input into an empty heap, and
`top()`/`pop()` fail — with `PreconditionViolation` — exactly on an empty
heap. -/
theorem heap_empty_top_pop {T : Type} [Inhabited T] (comp : T → T → Bool)
    (K : Nat) (isHeap : Bool) :
    bhMakeHeap isHeap comp ([] : List T) = [] ∧
    (0 < K → khMakeHeap K isHeap comp ([] : List T) = []) ∧
    (∀ nodes : List T,
      (heapTop nodes = Except.error HeapErr.preconditionViolation ↔
        nodes = []) ∧
      (bhPop comp nodes = Except.error HeapErr.preconditionViolation ↔
        nodes = []) ∧
      (khPop K comp nodes = Except.error HeapErr.preconditionViolation ↔
        nodes = [])) := by
  refine ⟨?_, ?_, ?_⟩
  · exact bhMakeHeap_id (fun i hi => absurd hi (by simp)) isHeap
  · intro hK
    exact khMakeHeap_id hK (fun i hi => absurd hi (by simp)) isHeap
  · intro nodes
    cases nodes with
    | nil => exact ⟨by simp [heapTop], by simp [bhPop], by simp [khPop]⟩
    | cons x rest =>
      exact ⟨by simp [heapTop], by simp [bhPop], by simp [khPop]⟩

/-- Claim C7: for a value absent from the queue, `key_at` finds no key
(the `.at` lookup fails), while `update_key` raises no recoverable error:
`operator[]` silently plants `index_map_[v] = 0` although `v` occupies no
slot, leaving the advertised map consistency violated. -/
theorem pq_absent_value_access {KeyT V : Type} [Inhabited V] [DecidableEq V]
    (ht : HeapType) (A : Nat) (comp : V → V → Bool) (s : PQ KeyT V)
    (k : KeyT) (v : V) (hinv : PQInv s) (hv : v ∉ s.nodes)
    (hkm : s.kmap v = none) :
    pqKeyAt s v = none ∧
    (pqUpdateKey ht A comp s k v).imap v = some 0 ∧
    v ∉ (pqUpdateKey ht A comp s k v).nodes ∧
    ¬ MapsConsistent (pqUpdateKey ht A comp s k v) := by
  obtain ⟨h1, h2⟩ := pqUpdateKey_absent ht A comp k hinv hv
  refine ⟨hkm, h1, h2, ?_⟩
  intro hmc
  obtain ⟨hlt, hnth⟩ := hmc.2 v 0 h1
  have hm : v ∈ (pqUpdateKey ht A comp s k v).nodes := by
    have hg := List.getElem_mem hlt
    rw [← nth_eq_getElem hlt, hnth] at hg
    exact hg
  exact h2 hm

/-- Witness for C7: looking up and updating the value 7 on a queue holding
only the value 5. -/
theorem pq_absent_value_access_witness :
    PQInv pqOne ∧ (7 : Nat) ∉ pqOne.nodes ∧ pqOne.kmap 7 = none ∧
    pqKeyAt pqOne 7 = none ∧
    ¬ MapsConsistent (pqUpdateKey HeapType.minHeap 3 (gtComp Nat) pqOne 2 7) :=
  ⟨pqSingletonInv, by decide, by decide,
    (pq_absent_value_access HeapType.minHeap 3 (gtComp Nat) pqOne 2 7
      pqSingletonInv (by decide) (by decide)).1,
    (pq_absent_value_access HeapType.minHeap 3 (gtComp Nat) pqOne 2 7
      pqSingletonInv (by decide) (by decide)).2.2.2⟩

/-- Claim C8: constructing a k-ary heap fails with `ConfigurationError`
exactly for arities outside `(2, 64]` (that is, `K ≤ 2` or `K > 64`), and
succeeds exactly for `2 < K ≤ 64`. -/
theorem kheap_arity_gate {T : Type} [Inhabited T] (K : Nat) (isHeap : Bool)
    (comp : T → T → Bool) (nodes : List T) :
    (makeKHeap K isHeap comp nodes =
        Except.error ConfigErr.configurationError ↔ K ≤ 2 ∨ 64 < K) ∧
    ((∃ out, makeKHeap K isHeap comp nodes = Except.ok out) ↔
      2 < K ∧ K ≤ 64) := by
  unfold makeKHeap
  by_cases h : khArityOk K = true
  · obtain ⟨h1, h2⟩ : 2 < K ∧ K ≤ 64 := by simpa [khArityOk] using h
    rw [if_pos h]
    constructor
    · constructor
      · intro he
        exact absurd he (by simp)
      · intro hk
        exact absurd hk (by omega)
    · constructor
      · intro _
        exact ⟨h1, h2⟩
      · intro _
        exact ⟨_, rfl⟩
  · have h2 : ¬(2 < K ∧ K ≤ 64) := by simpa [khArityOk] using h
    have h3 : K ≤ 2 ∨ 64 < K := by
      by_cases hk2 : 2 < K
      · right
        by_contra hle
        exact h2 ⟨hk2, by omega⟩
      · left
        omega
    rw [if_neg h]
    constructor
    · constructor
      · intro _
        exact h3
      · intro _
        rfl
    · constructor
      · rintro ⟨out, hout⟩
        exact absurd hout (by simp)
      · intro hk
        exact absurd hk h2

/-- Claim C9: on an input that already satisfies the heap property, building
with assume-heap=true and building with assume-heap=false give the very
same heap, so the full pop order is identical, on both backends. -/
theorem heap_assume_heap_equivalence {T : Type} [Inhabited T]
    (comp : T → T → Bool) :
    (∀ nodes : List T, heapProp 2 comp nodes →
      bhPopAll comp (bhMakeHeap true comp nodes) =
        bhPopAll comp (bhMakeHeap false comp nodes)) ∧
    (∀ (K : Nat), 0 < K → ∀ nodes : List T, heapProp K comp nodes →
      khPopAll K comp (khMakeHeap K true comp nodes) =
        khPopAll K comp (khMakeHeap K false comp nodes)) := by
  constructor
  · intro nodes hp
    rw [bhMakeHeap_id hp true, bhMakeHeap_id hp false]
  · intro K hK nodes hp
    rw [khMakeHeap_id hK hp true, khMakeHeap_id hK hp false]

/-- Claim C10: pushing a value that is already present appends a second copy
of it — the size grows by 1 and the value occupies two slots — while the
value keeps a single key-map entry (now the new key) and a single index-map
entry, pointing at the slot where the appended copy's sift-up came to
rest. -/
theorem pq_push_duplicate {KeyT V : Type} [Inhabited V] [DecidableEq V]
    (A : Nat) (comp : V → V → Bool) (s : PQ KeyT V) (k : KeyT) (v : V)
    (Hasym : compAsymm comp) (hinv : PQInv s) (hv : v ∈ s.nodes) :
    (pqPush A comp s k v).nodes.length = s.nodes.length + 1 ∧
    (pqPush A comp s k v).nodes.count v = 2 ∧
    (pqPush A comp s k v).kmap v = some k ∧
    (pqPush A comp s k v).imap v =
      some (upFinalPos A comp (s.nodes ++ [v]) s.nodes.length) ∧
    nth (pqPush A comp s k v).nodes
      (upFinalPos A comp (s.nodes ++ [v]) s.nodes.length) = v := by
  obtain ⟨hnd, hfwd, hbwd⟩ := hinv
  obtain ⟨hkm, hperm⟩ := pqPush_spec A comp s k v
  have hlen : (pqPush A comp s k v).nodes.length = s.nodes.length + 1 := by
    unfold pqPush
    rw [pqHeapifyUp_nodes, khHeapifyUp_length]
    simp
  have hcnt1 : s.nodes.count v = 1 := by
    have hle := List.nodup_iff_count_le_one.mp hnd v
    have hpos := List.count_pos_iff.mpr hv
    omega
  have hcnt : (pqPush A comp s k v).nodes.count v = 2 := by
    rw [hperm.count_eq, List.count_append, hcnt1]
    simp
  have hdup := pqHeapifyUp_dup A comp Hasym
    (PQ.mk (s.nodes ++ [v])
      (fun w => if w = v then some k else s.kmap w)
      (fun w => if w = v then some s.nodes.length else s.imap w))
    s.nodes.length
    (by simp)
    (nth_append_last s.nodes v)
    (by simp)
    (by
      intro p hp hpv
      simp only [List.length_append, List.length_cons, List.length_nil] at hp
      have hpn : p ≠ s.nodes.length := by
        intro he
        rw [he] at hpv
        exact hpv (nth_append_last s.nodes v)
      have hplt : p < s.nodes.length := by omega
      have he : nth (s.nodes ++ [v]) p = nth s.nodes p := nth_append_lt hplt
      rw [he] at hpv ⊢
      show (if nth s.nodes p = v then some s.nodes.length
        else s.imap (nth s.nodes p)) = some p
      rw [if_neg hpv]
      exact hfwd p hplt)
    (by
      intro w hw
      rw [List.count_append]
      have hle := List.nodup_iff_count_le_one.mp hnd w
      have h0 : ([v] : List V).count w = 0 := by
        simp [List.count_cons, hw]
      omega)
  exact ⟨hlen, hcnt, by rw [hkm]; simp, hdup.1, hdup.2.1⟩

/-- Witness for C10: pushing the value 5 onto the queue already holding 5. -/
theorem pq_push_duplicate_witness :
    compAsymm (gtComp Nat) ∧ PQInv pqOne ∧ (5 : Nat) ∈ pqOne.nodes ∧
    (pqPush 3 (gtComp Nat) pqOne 9 5).nodes.count 5 = 2 :=
  ⟨gtComp_asymm Nat, pqSingletonInv, by decide,
    (pq_push_duplicate 3 (gtComp Nat) pqOne 9 5 (gtComp_asymm Nat)
      pqSingletonInv (by decide)).2.1⟩

end Jkds
